import Mathlib

/-!
# Verification of the ToTheMoon smart data loader (`moonboy/data/loader.py`)

This file gives a shallow embedding of the cache-reconciliation subsystem of
the repository: `Range`, the partition scheme `INTERVAL_SPLIT`,
`get_split_ranges`, `scan_cache_ranges`, `find_missing_ranges`,
`download_data` and `load_data`, together with proofs of the spec's claims
about them.

Python `datetime` values are modelled by the structure `DateTime` below:
year/month/day plus a single `tod` field collapsing the sub-day components
(hour, minute, second, microsecond) lexicographically.  The constructor
invariants of `datetime` (months 1..12, days within the month, time of day
bounded) are carried as proof fields, since the loader's loops rely on them.
The filesystem is modelled as an association list from (directory, filename)
pairs to stored rows, and the pandas `DataFrame` of bars as a list of
(timestamp, payload) pairs in file order.
-/

/-- Microseconds in a day: bound for the collapsed time-of-day field. -/
def todBound : Nat := 86400000000

/-- Gregorian leap-year test, as validated by Python's `datetime`. -/
def isLeap (y : Nat) : Bool := y % 4 == 0 && (y % 100 != 0 || y % 400 == 0)

/-- Days in a month, as validated by Python's `datetime` constructor. -/
def daysInMonth (y m : Nat) : Nat :=
  if m = 2 then (if isLeap y then 29 else 28)
  else if m = 4 ∨ m = 6 ∨ m = 9 ∨ m = 11 then 30
  else 31

theorem daysInMonth_le (y m : Nat) : daysInMonth y m ≤ 31 := by
  unfold daysInMonth; split <;> [split <;> omega; split <;> omega]

theorem daysInMonth_pos (y m : Nat) : 1 ≤ daysInMonth y m := by
  unfold daysInMonth; split <;> [split <;> omega; split <;> omega]

/-- A Python `datetime` value: year, month, day and collapsed time of day,
with the validity invariants enforced by the `datetime` constructor. -/
structure DateTime where
  year : Nat
  month : Nat
  day : Nat
  tod : Nat
  hy : 1 ≤ year
  hm1 : 1 ≤ month
  hm2 : month ≤ 12
  hd1 : 1 ≤ day
  hd2 : day ≤ daysInMonth year month
  ht : tod < todBound

theorem DateTime.ext' {a b : DateTime} (h1 : a.year = b.year)
    (h2 : a.month = b.month) (h3 : a.day = b.day) (h4 : a.tod = b.tod) :
    a = b := by
  cases a; cases b; simp_all

/-- Lexicographic key: the `datetime` ordering as a single natural number. -/
def DateTime.key (d : DateTime) : Nat :=
  ((d.year * 13 + d.month) * 32 + d.day) * todBound + d.tod

theorem DateTime.key_inj {a b : DateTime} (h : a.key = b.key) : a = b := by
  have ha1 := a.hm1; have ha2 := a.hm2; have ha3 := a.hd1
  have ha4 := le_trans a.hd2 (daysInMonth_le a.year a.month); have ha5 := a.ht
  have hb1 := b.hm1; have hb2 := b.hm2; have hb3 := b.hd1
  have hb4 := le_trans b.hd2 (daysInMonth_le b.year b.month); have hb5 := b.ht
  unfold DateTime.key todBound at h
  unfold todBound at ha5 hb5
  exact DateTime.ext' (by omega) (by omega) (by omega) (by omega)

theorem DateTime.key_injective : Function.Injective DateTime.key :=
  fun _ _ h => DateTime.key_inj h

instance : LinearOrder DateTime :=
  LinearOrder.lift' DateTime.key DateTime.key_injective

instance : DecidableEq DateTime := fun a b =>
  if h : a.key = b.key then isTrue (DateTime.key_inj h)
  else isFalse (fun e => h (congrArg DateTime.key e))

theorem DateTime.le_iff_key {a b : DateTime} : a ≤ b ↔ a.key ≤ b.key :=
  Iff.rfl

theorem DateTime.lt_iff_key {a b : DateTime} : a < b ↔ a.key < b.key :=
  Iff.rfl

/-- Convenience constructor for concrete midnight dates. -/
def mkDate (y m d : Nat)
    (h : 1 ≤ y ∧ 1 ≤ m ∧ m ≤ 12 ∧ 1 ≤ d ∧ d ≤ daysInMonth y m) : DateTime :=
  ⟨y, m, d, 0, h.1, h.2.1, h.2.2.1, h.2.2.2.1, h.2.2.2.2, by decide⟩

/-- `datetime.date()`: drop the time-of-day component. -/
def DateTime.dateOnly (d : DateTime) : DateTime :=
  ⟨d.year, d.month, d.day, 0, d.hy, d.hm1, d.hm2, d.hd1, d.hd2, by decide⟩

theorem DateTime.dateOnly_le (d : DateTime) : d.dateOnly ≤ d := by
  simp only [DateTime.le_iff_key, DateTime.key, DateTime.dateOnly]
  omega

theorem DateTime.dateOnly_eq_self {d : DateTime} (h : d.tod = 0) :
    d.dateOnly = d := DateTime.ext' rfl rfl rfl h.symm

/-- The `Range` namedtuple of the loader: a half-open time interval. -/
structure Range where
  start : DateTime
  stop : DateTime
deriving DecidableEq

/-- Partition granularities appearing as values of `INTERVAL_SPLIT`. -/
inductive Split where
  | year : Split
  | month : Split
  | decade : Split
deriving DecidableEq

/-- The `INTERVAL_SPLIT` dict of the loader, as an association list. -/
def INTERVAL_SPLIT : List (String × Split) :=
  [("1d", .year), ("1h", .month), ("1wk", .year), ("1mo", .decade),
   ("5d", .year), ("30m", .month), ("15m", .month), ("5m", .month),
   ("1m", .month)]

/-- `INTERVAL_SPLIT.get(interval, 'year')`: granularity lookup with the
`'year'` default for unrecognized intervals. -/
def granularity (interval : String) : Split :=
  (INTERVAL_SPLIT.lookup interval).getD .year

/-- The next split boundary computed by one iteration of the loop in
`get_split_ranges`: `datetime(cur.year + 1, 1, 1)` for `'year'`, the first
of the next month for `'month'`, `datetime((cur.year // 10 + 1) * 10, 1, 1)`
for `'decade'`. -/
def nextSplit (split : Split) (cur : DateTime) : DateTime :=
  match split with
  | .year => ⟨cur.year + 1, 1, 1, 0, by omega, by omega, by omega, by omega,
      daysInMonth_pos _ _, by decide⟩
  | .month =>
      if h : cur.month = 12 then
        ⟨cur.year + 1, 1, 1, 0, by omega, by omega, by omega, by omega,
          daysInMonth_pos _ _, by decide⟩
      else
        ⟨cur.year, cur.month + 1, 1, 0, cur.hy, by omega,
          by have := cur.hm2; omega, by omega, daysInMonth_pos _ _, by decide⟩
  | .decade => ⟨(cur.year / 10 + 1) * 10, 1, 1, 0, by omega, by omega,
      by omega, by omega, daysInMonth_pos _ _, by decide⟩

/-- Month index used to bound the number of loop iterations. -/
def monthIdx (d : DateTime) : Nat := d.year * 12 + d.month

theorem monthIdx_mono {a b : DateTime} (h : a ≤ b) : monthIdx a ≤ monthIdx b := by
  rw [DateTime.le_iff_key] at h
  have ha2 := a.hm2; have hb1 := b.hm1
  have ha3 := a.hd1; have hb3 := b.hd1
  have ha4 := le_trans a.hd2 (daysInMonth_le a.year a.month)
  have hb4 := le_trans b.hd2 (daysInMonth_le b.year b.month)
  have ha5 := a.ht; have hb5 := b.ht
  unfold DateTime.key todBound at h ha5 hb5
  unfold monthIdx
  omega

theorem year_mono {a b : DateTime} (h : a ≤ b) : a.year ≤ b.year := by
  rw [DateTime.le_iff_key] at h
  have ha1 := a.hm1; have hb2 := b.hm2
  have ha2 := a.hm2; have hb1 := b.hm1
  have ha3 := a.hd1; have hb3 := b.hd1
  have ha4 := le_trans a.hd2 (daysInMonth_le a.year a.month)
  have hb4 := le_trans b.hd2 (daysInMonth_le b.year b.month)
  have ha5 := a.ht; have hb5 := b.ht
  unfold DateTime.key todBound at h ha5 hb5
  omega

theorem lt_nextSplit (split : Split) (cur : DateTime) :
    cur < nextSplit split cur := by
  have h2 := cur.hm2
  have h4 := le_trans cur.hd2 (daysInMonth_le cur.year cur.month)
  have h5 := cur.ht
  cases split <;> rw [DateTime.lt_iff_key] <;>
    simp only [nextSplit, DateTime.key, todBound] <;>
    [skip; (split <;> simp only [DateTime.key]); skip] <;>
    unfold todBound at h5 <;> omega

theorem monthIdx_nextSplit (split : Split) (cur : DateTime) :
    monthIdx cur < monthIdx (nextSplit split cur) := by
  have h1 := cur.hm1; have h2 := cur.hm2
  cases split <;> simp only [nextSplit, monthIdx]
  · omega
  · split <;> simp only [monthIdx] <;> omega
  · have : cur.year < (cur.year / 10 + 1) * 10 := by omega
    omega

/-- Iteration bound for the splitting loop in `get_split_ranges`. -/
def splitMeasure (stop cur : DateTime) : Nat :=
  2 * (monthIdx stop + 1 - monthIdx cur) + (if cur = stop then 0 else 1)

theorem splitMeasure_step (stop cur : DateTime) (split : Split)
    (h : cur < stop) :
    splitMeasure stop (min (nextSplit split cur) stop) < splitMeasure stop cur := by
  have hle : monthIdx cur ≤ monthIdx stop := monthIdx_mono (le_of_lt h)
  have hne : cur ≠ stop := ne_of_lt h
  rcases le_total (nextSplit split cur) stop with hc | hc
  · rw [min_eq_left hc]
    have h1 : monthIdx cur < monthIdx (nextSplit split cur) :=
      monthIdx_nextSplit split cur
    have h2 : monthIdx (nextSplit split cur) ≤ monthIdx stop := monthIdx_mono hc
    unfold splitMeasure
    simp only [if_neg hne]
    split <;> omega
  · rw [min_eq_right hc]
    unfold splitMeasure
    simp [hne]
    omega

/-- The while-loop of `get_split_ranges`, structurally recursive on an
iteration bound (`splitMeasure` supplies a sufficient bound; see
`splitLoop_fuel`).  Each iteration emits `Range(cur, min(next_split, end))`
and advances the cursor to that split end. -/
def splitLoop (split : Split) (stop : DateTime) : Nat → DateTime → List Range
  | 0, _ => []
  | fuel + 1, cur =>
      if cur < stop then
        let se := min (nextSplit split cur) stop
        ⟨cur, se⟩ :: splitLoop split stop fuel se
      else []

/-- `get_split_ranges(start, end, interval)`. -/
def get_split_ranges (start stop : DateTime) (interval : String) : List Range :=
  splitLoop (granularity interval) stop (splitMeasure stop start) start

/-- Python `datetime.MAXYEAR`: the `datetime` constructor raises
`ValueError: year is out of range` for any year above it. -/
def MAXYEAR : Nat := 9999

/-- The boundary computation of one loop iteration with the `datetime`
constructor's year-range check: `none` models the `ValueError` raised by
`datetime(cur.year + 1, 1, 1)` (and the month/decade analogues) when the
constructed year exceeds `MAXYEAR`.  The constructed year is always at
least 1, so only the upper bound can fail. -/
def nextSplitE (split : Split) (cur : DateTime) : Option DateTime :=
  if (nextSplit split cur).year ≤ MAXYEAR then some (nextSplit split cur)
  else none

/-- The while-loop of `get_split_ranges` with the error path: `none` models
the loop dying in a `ValueError` from the boundary computation, before the
current sub-range is appended. -/
def splitLoopE (split : Split) (stop : DateTime) :
    Nat → DateTime → Option (List Range)
  | 0, _ => some []
  | fuel + 1, cur =>
      if cur < stop then
        match nextSplitE split cur with
        | none => none
        | some nxt =>
            let se := min nxt stop
            (splitLoopE split stop fuel se).map fun rs => ⟨cur, se⟩ :: rs
      else some []

/-- `get_split_ranges(start, end, interval)` with the `datetime` year-range
error path: `none` models the call raising `ValueError`. -/
def get_split_rangesE (start stop : DateTime) (interval : String) :
    Option (List Range) :=
  splitLoopE (granularity interval) stop (splitMeasure stop start) start

/-- Below year 9990 every granularity's next boundary stays within
`datetime`'s year range (the decade boundary of a 998x year is 9990). -/
theorem nextSplit_year_le {cur : DateTime} (split : Split)
    (h : cur.year ≤ 9989) : (nextSplit split cur).year ≤ 9999 := by
  cases split
  · show cur.year + 1 ≤ 9999
    omega
  · simp only [nextSplit]
    split
    · show cur.year + 1 ≤ 9999
      omega
    · show cur.year ≤ 9999
      omega
  · show (cur.year / 10 + 1) * 10 ≤ 9999
    omega

theorem nextSplitE_safe {cur : DateTime} (split : Split)
    (h : cur.year ≤ 9989) :
    nextSplitE split cur = some (nextSplit split cur) := by
  unfold nextSplitE MAXYEAR
  rw [if_pos (nextSplit_year_le split h)]

theorem nextSplitE_lt {split : Split} {cur n : DateTime}
    (h : nextSplitE split cur = some n) : cur < n := by
  unfold nextSplitE at h
  split at h
  · exact (Option.some_injective _ h) ▸ lt_nextSplit split cur
  · exact absurd h (Option.some_ne_none n).symm

/-- In the raise-free region (gap end below year 9990) the faithful loop
agrees with the totalised loop: no iteration's boundary computation can
raise. -/
theorem splitLoopE_agree (split : Split) (stop : DateTime)
    (h : stop.year ≤ 9989) :
    ∀ fuel cur, splitLoopE split stop fuel cur =
      some (splitLoop split stop fuel cur) := by
  intro fuel
  induction fuel with
  | zero => intro cur; rfl
  | succ n ih =>
      intro cur
      by_cases hc : cur < stop
      · have hyc : cur.year ≤ 9989 :=
          le_trans (year_mono (le_of_lt hc)) h
        simp only [splitLoopE, splitLoop, if_pos hc, nextSplitE_safe split hyc,
          ih]
        rfl
      · simp only [splitLoopE, splitLoop, if_neg hc]

theorem get_split_rangesE_agree (start stop : DateTime) (interval : String)
    (h : stop.year ≤ 9989) :
    get_split_rangesE start stop interval =
      some (get_split_ranges start stop interval) :=
  splitLoopE_agree (granularity interval) stop h _ start

/-- The loop result is independent of the iteration bound once the bound is
at least `splitMeasure`: the loop genuinely terminates within that bound. -/
theorem splitLoop_fuel (split : Split) (stop : DateTime) :
    ∀ fuel cur, splitMeasure stop cur ≤ fuel →
      splitLoop split stop fuel cur =
        splitLoop split stop (splitMeasure stop cur) cur := by
  intro fuel
  induction fuel using Nat.strong_induction_on with
  | _ fuel ih =>
    intro cur hf
    have hm : 1 ≤ splitMeasure stop cur := by
      unfold splitMeasure
      split
      · rename_i h; subst h; omega
      · omega
    have h1 : 1 ≤ fuel := le_trans hm hf
    obtain ⟨f, rfl⟩ : ∃ f, fuel = f + 1 := ⟨fuel - 1, by omega⟩
    obtain ⟨μ, hμ⟩ : ∃ μ, splitMeasure stop cur = μ + 1 :=
      ⟨splitMeasure stop cur - 1, by omega⟩
    by_cases hcs : cur < stop
    · have hstep := splitMeasure_step stop cur split hcs
      rw [hμ]
      simp only [splitLoop, if_pos hcs]
      rw [ih f (Nat.lt_succ_self f) _ (by omega)]
      rw [ih μ (by omega) _ (by omega)]
    · rw [hμ]
      simp only [splitLoop, if_neg hcs]

theorem splitMeasure_pos (stop cur : DateTime) : 1 ≤ splitMeasure stop cur := by
  unfold splitMeasure
  split
  · rename_i h; subst h; omega
  · omega

theorem nextSplit_tod (split : Split) (cur : DateTime) :
    (nextSplit split cur).tod = 0 := by
  cases split
  · simp only [nextSplit]
  · simp only [nextSplit]; split <;> rfl
  · simp only [nextSplit]

/-- A datetime lying on the split boundary of the given granularity. -/
def isBoundary : Split → DateTime → Prop
  | .year, d => d.month = 1 ∧ d.day = 1 ∧ d.tod = 0
  | .month, d => d.day = 1 ∧ d.tod = 0
  | .decade, d => d.year % 10 = 0 ∧ d.month = 1 ∧ d.day = 1 ∧ d.tod = 0

theorem isBoundary_nextSplit (split : Split) (cur : DateTime) :
    isBoundary split (nextSplit split cur) := by
  cases split
  · simp [nextSplit, isBoundary]
  · by_cases h : cur.month = 12 <;> simp [nextSplit, isBoundary, h]
  · simp [nextSplit, isBoundary]

theorem lt_splitEnd {split : Split} {stop cur : DateTime} (h : cur < stop) :
    cur < min (nextSplit split cur) stop :=
  lt_min (lt_nextSplit split cur) h

theorem splitLoop_mem_bounds (split : Split) (stop : DateTime) :
    ∀ fuel cur, splitMeasure stop cur ≤ fuel →
      ∀ r ∈ splitLoop split stop fuel cur,
        cur ≤ r.start ∧ r.start < r.stop ∧ r.stop ≤ stop := by
  intro fuel
  induction fuel with
  | zero => intro cur hf; exact ((Nat.not_succ_le_zero 0) (le_trans (splitMeasure_pos stop cur) hf)).elim
  | succ f ih =>
    intro cur hf r hr
    by_cases hcs : cur < stop
    · simp only [splitLoop, if_pos hcs] at hr
      have hstep := splitMeasure_step stop cur split hcs
      rcases List.mem_cons.mp hr with h | h
      · subst h
        exact ⟨le_refl _, lt_splitEnd hcs, min_le_right _ _⟩
      · have := ih _ (by omega) r h
        exact ⟨le_trans (le_of_lt (lt_splitEnd hcs)) this.1, this.2.1, this.2.2⟩
    · simp only [splitLoop, if_neg hcs] at hr
      exact absurd hr (List.not_mem_nil r)

theorem splitLoop_mem_iff (split : Split) (stop : DateTime) :
    ∀ fuel cur, splitMeasure stop cur ≤ fuel → ∀ t : DateTime,
      (∃ r ∈ splitLoop split stop fuel cur, r.start ≤ t ∧ t < r.stop) ↔
        (cur ≤ t ∧ t < stop) := by
  intro fuel
  induction fuel with
  | zero => intro cur hf; exact ((Nat.not_succ_le_zero 0) (le_trans (splitMeasure_pos stop cur) hf)).elim
  | succ f ih =>
    intro cur hf t
    by_cases hcs : cur < stop
    · simp only [splitLoop, if_pos hcs]
      have hstep := splitMeasure_step stop cur split hcs
      have hrec := ih (min (nextSplit split cur) stop) (by omega) t
      constructor
      · rintro ⟨r, hr, h1, h2⟩
        rcases List.mem_cons.mp hr with h | h
        · subst h
          exact ⟨h1, lt_of_lt_of_le h2 (min_le_right _ _)⟩
        · have := hrec.mp ⟨r, h, h1, h2⟩
          exact ⟨le_trans (le_of_lt (lt_splitEnd hcs)) this.1, this.2⟩
      · rintro ⟨h1, h2⟩
        rcases lt_or_le t (min (nextSplit split cur) stop) with h3 | h3
        · exact ⟨⟨cur, min (nextSplit split cur) stop⟩, List.mem_cons_self _ _,
            h1, h3⟩
        · obtain ⟨r, hr, h4, h5⟩ := hrec.mpr ⟨h3, h2⟩
          exact ⟨r, List.mem_cons_of_mem _ hr, h4, h5⟩
    · simp only [splitLoop, if_neg hcs]
      constructor
      · rintro ⟨r, hr, _⟩; exact absurd hr (List.not_mem_nil r)
      · rintro ⟨h1, h2⟩; exact absurd (lt_of_le_of_lt h1 h2) hcs

theorem splitLoop_chain (split : Split) (stop : DateTime) :
    ∀ fuel cur, splitMeasure stop cur ≤ fuel →
      List.Chain' (fun a b => a.stop = b.start ∧ isBoundary split b.start)
        (splitLoop split stop fuel cur) := by
  intro fuel
  induction fuel with
  | zero => intro cur hf; exact ((Nat.not_succ_le_zero 0) (le_trans (splitMeasure_pos stop cur) hf)).elim
  | succ f ih =>
    intro cur hf
    by_cases hcs : cur < stop
    · simp only [splitLoop, if_pos hcs]
      have hstep := splitMeasure_step stop cur split hcs
      apply List.chain'_cons'.mpr
      refine ⟨?_, ih _ (by omega)⟩
      intro b hb
      set se := min (nextSplit split cur) stop with hse
      by_cases hcs2 : se < stop
      · have h1 : 1 ≤ splitMeasure stop se := splitMeasure_pos stop se
        obtain ⟨g, hg⟩ : ∃ g, f = g + 1 := ⟨f - 1, by omega⟩
        subst hg
        simp only [splitLoop, if_pos hcs2, List.head?_cons, Option.mem_def,
          Option.some.injEq] at hb
        subst hb
        refine ⟨rfl, ?_⟩
        have hmin : se = nextSplit split cur := by
          rcases min_choice (nextSplit split cur) stop with h | h
          · exact h
          · rw [hse, h] at hcs2; exact absurd hcs2 (lt_irrefl _)
        rw [hmin]
        exact isBoundary_nextSplit split cur
      · rcases f with _ | g
        · simp only [splitLoop] at hb; simp at hb
        · simp only [splitLoop, if_neg hcs2, List.head?_nil, Option.mem_def] at hb
          cases hb
    · simp only [splitLoop, if_neg hcs]
      exact List.chain'_nil

theorem splitLoop_getLast (split : Split) (stop : DateTime) :
    ∀ fuel cur, splitMeasure stop cur ≤ fuel → cur < stop →
      ∃ r, (splitLoop split stop fuel cur).getLast? = some r ∧ r.stop = stop := by
  intro fuel
  induction fuel with
  | zero => intro cur hf; exact ((Nat.not_succ_le_zero 0) (le_trans (splitMeasure_pos stop cur) hf)).elim
  | succ f ih =>
    intro cur hf hcs
    simp only [splitLoop, if_pos hcs]
    have hstep := splitMeasure_step stop cur split hcs
    set se := min (nextSplit split cur) stop with hse
    by_cases hcs2 : se < stop
    · obtain ⟨r, hr, hr2⟩ := ih se (by omega) hcs2
      refine ⟨r, ?_, hr2⟩
      rcases hnil : splitLoop split stop f se with _ | ⟨a, l⟩
      · rw [hnil] at hr; simp at hr
      · rw [hnil] at hr
        rw [List.getLast?_cons_cons]
        exact hr
    · have hstop : se = stop := le_antisymm (min_le_right _ _) (not_lt.mp hcs2)
      have hnil : splitLoop split stop f se = [] := by
        rcases f with _ | g
        · rfl
        · simp only [splitLoop, if_neg hcs2]
      rw [hnil]
      exact ⟨⟨cur, se⟩, rfl, hstop⟩

theorem splitLoop_stop_tod (split : Split) (stop : DateTime) (hst : stop.tod = 0) :
    ∀ fuel cur, splitMeasure stop cur ≤ fuel →
      ∀ r ∈ splitLoop split stop fuel cur, r.stop.tod = 0 := by
  intro fuel
  induction fuel with
  | zero => intro cur hf; exact ((Nat.not_succ_le_zero 0) (le_trans (splitMeasure_pos stop cur) hf)).elim
  | succ f ih =>
    intro cur hf r hr
    by_cases hcs : cur < stop
    · simp only [splitLoop, if_pos hcs] at hr
      have hstep := splitMeasure_step stop cur split hcs
      rcases List.mem_cons.mp hr with h | h
      · subst h
        show (min (nextSplit split cur) stop).tod = 0
        rcases min_choice (nextSplit split cur) stop with h | h <;> rw [h]
        · exact nextSplit_tod split cur
        · exact hst
      · exact ih _ (by omega) r h
    · simp only [splitLoop, if_neg hcs] at hr
      exact absurd hr (List.not_mem_nil r)

/-- A cache file locator: (directory path, file name), modelling the
`os.path.join(ticker_dir, fname)` paths handled by the loader. -/
abbrev FileKey := String × String

/-- A scanned cache entry `(start, end, filename)`. -/
abbrev CacheEntry := DateTime × DateTime × FileKey

/-- The sort key of `sorted(..., key=lambda r: r.start)`. -/
def byStart (a b : Range) : Prop := a.start ≤ b.start

instance : DecidableRel byStart := fun a b =>
  inferInstanceAs (Decidable (a.start ≤ b.start))

instance : IsTotal Range byStart := ⟨fun a b => le_total a.start b.start⟩

instance : IsTrans Range byStart := ⟨fun _ _ _ h1 h2 => le_trans h1 h2⟩

/-- The merge loop of `find_missing_ranges`: `acc` plays the role of
`merged[-1]`; each cached range either starts a new merged block (when
`r.start > merged[-1].end`) or is absorbed into the current block, whose
end becomes `max(merged[-1].end, r.end)`. -/
def mergeGo (acc : Range) : List Range → List Range
  | [] => [acc]
  | r :: rs =>
      if acc.stop < r.start then acc :: mergeGo r rs
      else mergeGo ⟨acc.start, max acc.stop r.stop⟩ rs

/-- Sort-and-merge pass of `find_missing_ranges` over the cached ranges. -/
def mergeRanges (cached : List Range) : List Range :=
  match List.insertionSort byStart cached with
  | [] => []
  | r :: rs => mergeGo r rs

/-- The gap-walking loop of `find_missing_ranges`: the cursor walks the
merged ranges left to right; whenever the cursor falls short of the next
merged range's start, the gap up to `min(r.start, requested_end)` is
emitted; the cursor advances to `max(cur, r.end)` and the loop breaks once
it reaches `requested_end`; a trailing gap is emitted if the cursor is
still short of `requested_end` at the end. -/
def gapsLoop (re : DateTime) : DateTime → List Range → List Range
  | cur, [] => if cur < re then [⟨cur, re⟩] else []
  | cur, r :: rs =>
      let m : List Range := if cur < r.start then [⟨cur, min r.start re⟩] else []
      let cur2 := max cur r.stop
      if re ≤ cur2 then m else m ++ gapsLoop re cur2 rs

/-- `find_missing_ranges(requested_start, requested_end, cached_ranges)`. -/
def find_missing_ranges (rqs rqe : DateTime) (cached : List CacheEntry) :
    List Range :=
  gapsLoop rqe rqs (mergeRanges (cached.map (fun c => ⟨c.1, c.2.1⟩)))

theorem interval_absorb {a1 a2 r1 r2 t : DateTime} (h1 : a1 ≤ r1)
    (h2 : r1 ≤ a2) :
    (a1 ≤ t ∧ t < max a2 r2) ↔ ((a1 ≤ t ∧ t < a2) ∨ (r1 ≤ t ∧ t < r2)) := by
  constructor
  · rintro ⟨ht1, ht2⟩
    rcases lt_max_iff.mp ht2 with h | h
    · exact Or.inl ⟨ht1, h⟩
    · rcases lt_or_le t a2 with h3 | h3
      · exact Or.inl ⟨ht1, h3⟩
      · exact Or.inr ⟨le_trans h2 h3, h⟩
  · rintro (⟨ht1, ht2⟩ | ⟨ht1, ht2⟩)
    · exact ⟨ht1, lt_max_iff.mpr (Or.inl ht2)⟩
    · exact ⟨le_trans h1 ht1, lt_max_iff.mpr (Or.inr ht2)⟩

theorem mergeGo_start_le :
    ∀ (L : List Range) (acc : Range), (∀ r ∈ L, acc.start ≤ r.start) →
      List.Sorted byStart L → ∀ x ∈ mergeGo acc L, acc.start ≤ x.start := by
  intro L
  induction L with
  | nil =>
    intro acc _ _ x hx
    simp only [mergeGo, List.mem_singleton] at hx
    subst hx; exact le_refl _
  | cons r rs ih =>
    intro acc h1 h2 x hx
    rw [List.sorted_cons] at h2
    simp only [mergeGo] at hx
    split at hx
    · rcases List.mem_cons.mp hx with h | h
      · subst h; exact le_refl _
      · exact le_trans (h1 r (List.mem_cons_self r rs)) (ih r h2.1 h2.2 x h)
    · exact ih ⟨acc.start, max acc.stop r.stop⟩
        (fun y hy => h1 y (List.mem_cons_of_mem r hy)) h2.2 x hx

theorem mergeGo_sorted :
    ∀ (L : List Range) (acc : Range), (∀ r ∈ L, acc.start ≤ r.start) →
      List.Sorted byStart L → List.Sorted byStart (mergeGo acc L) := by
  intro L
  induction L with
  | nil => intro acc _ _; simp [mergeGo, List.sorted_singleton]
  | cons r rs ih =>
    intro acc h1 h2
    rw [List.sorted_cons] at h2
    simp only [mergeGo]
    split
    · rw [List.sorted_cons]
      refine ⟨?_, ih r h2.1 h2.2⟩
      intro b hb
      exact le_trans (h1 r (List.mem_cons_self r rs)) (mergeGo_start_le rs r h2.1 h2.2 b hb)
    · exact ih ⟨acc.start, max acc.stop r.stop⟩
        (fun y hy => h1 y (List.mem_cons_of_mem r hy)) h2.2

theorem mergeGo_wf :
    ∀ (L : List Range) (acc : Range), acc.start < acc.stop →
      (∀ r ∈ L, r.start < r.stop) →
      ∀ x ∈ mergeGo acc L, x.start < x.stop := by
  intro L
  induction L with
  | nil =>
    intro acc ha _ x hx
    simp only [mergeGo, List.mem_singleton] at hx
    subst hx; exact ha
  | cons r rs ih =>
    intro acc ha h1 x hx
    simp only [mergeGo] at hx
    split at hx
    · rcases List.mem_cons.mp hx with h | h
      · subst h; exact ha
      · exact ih r (h1 r (List.mem_cons_self r rs))
          (fun y hy => h1 y (List.mem_cons_of_mem r hy)) x h
    · refine ih ⟨acc.start, max acc.stop r.stop⟩ ?_
        (fun y hy => h1 y (List.mem_cons_of_mem r hy)) x hx
      exact lt_of_lt_of_le ha (le_max_left _ _)

theorem mergeGo_mem_iff :
    ∀ (L : List Range) (acc : Range), (∀ r ∈ L, acc.start ≤ r.start) →
      List.Sorted byStart L → ∀ t : DateTime,
      (∃ x ∈ mergeGo acc L, x.start ≤ t ∧ t < x.stop) ↔
        ((acc.start ≤ t ∧ t < acc.stop) ∨ ∃ r ∈ L, r.start ≤ t ∧ t < r.stop) := by
  intro L
  induction L with
  | nil =>
    intro acc _ _ t
    simp [mergeGo]
  | cons r rs ih =>
    intro acc h1 h2 t
    rw [List.sorted_cons] at h2
    simp only [mergeGo]
    split
    · rename_i hlt
      constructor
      · rintro ⟨x, hx, hx1, hx2⟩
        rcases List.mem_cons.mp hx with h | h
        · subst h; exact Or.inl ⟨hx1, hx2⟩
        · rcases (ih r h2.1 h2.2 t).mp ⟨x, h, hx1, hx2⟩ with h | ⟨y, hy, hy1, hy2⟩
          · exact Or.inr ⟨r, List.mem_cons_self r rs, h⟩
          · exact Or.inr ⟨y, List.mem_cons_of_mem r hy, hy1, hy2⟩
      · rintro (h | ⟨y, hy, hy1, hy2⟩)
        · exact ⟨acc, List.mem_cons_self _ _, h⟩
        · rcases List.mem_cons.mp hy with h | h
          · rw [h] at hy1 hy2
            obtain ⟨x, hx, hx1, hx2⟩ := (ih r h2.1 h2.2 t).mpr (Or.inl ⟨hy1, hy2⟩)
            exact ⟨x, List.mem_cons_of_mem acc hx, hx1, hx2⟩
          · obtain ⟨x, hx, hx1, hx2⟩ := (ih r h2.1 h2.2 t).mpr
              (Or.inr ⟨y, h, hy1, hy2⟩)
            exact ⟨x, List.mem_cons_of_mem acc hx, hx1, hx2⟩
    · rename_i hge
      have hr : r.start ≤ acc.stop := not_lt.mp hge
      have hacc : acc.start ≤ r.start := h1 r (List.mem_cons_self r rs)
      have habs := @interval_absorb _ _ _ r.stop t hacc hr
      rw [ih ⟨acc.start, max acc.stop r.stop⟩
        (fun y hy => h1 y (List.mem_cons_of_mem r hy)) h2.2 t]
      constructor
      · rintro (h | ⟨y, hy, hy1, hy2⟩)
        · rcases habs.mp h with h | h
          · exact Or.inl h
          · exact Or.inr ⟨r, List.mem_cons_self r rs, h⟩
        · exact Or.inr ⟨y, List.mem_cons_of_mem r hy, hy1, hy2⟩
      · rintro (h | ⟨y, hy, hy1, hy2⟩)
        · exact Or.inl (habs.mpr (Or.inl h))
        · rcases List.mem_cons.mp hy with h | h
          · rw [h] at hy1 hy2; exact Or.inl (habs.mpr (Or.inr ⟨hy1, hy2⟩))
          · exact Or.inr ⟨y, h, hy1, hy2⟩

theorem sorted_of_sort (C : List Range) :
    List.Sorted byStart (List.insertionSort byStart C) :=
  List.sorted_insertionSort byStart C

theorem mergeRanges_sorted (C : List Range) :
    List.Sorted byStart (mergeRanges C) := by
  unfold mergeRanges
  rcases h : List.insertionSort byStart C with _ | ⟨r, rs⟩
  · exact List.sorted_nil
  · have := sorted_of_sort C
    rw [h, List.sorted_cons] at this
    exact mergeGo_sorted rs r this.1 this.2

theorem mergeRanges_wf (C : List Range) (hwf : ∀ r ∈ C, r.start < r.stop) :
    ∀ x ∈ mergeRanges C, x.start < x.stop := by
  unfold mergeRanges
  rcases h : List.insertionSort byStart C with _ | ⟨r, rs⟩
  · intro x hx; exact absurd hx (List.not_mem_nil x)
  · have hs := sorted_of_sort C
    rw [h, List.sorted_cons] at hs
    have hmem : ∀ y ∈ r :: rs, y.start < y.stop := by
      intro y hy
      exact hwf y ((List.perm_insertionSort byStart C).mem_iff.mp (h ▸ hy))
    exact mergeGo_wf rs r (hmem r (List.mem_cons_self r rs))
      (fun y hy => hmem y (List.mem_cons_of_mem r hy))

theorem mergeRanges_mem_iff (C : List Range) (t : DateTime) :
    (∃ x ∈ mergeRanges C, x.start ≤ t ∧ t < x.stop) ↔
      ∃ r ∈ C, r.start ≤ t ∧ t < r.stop := by
  unfold mergeRanges
  rcases h : List.insertionSort byStart C with _ | ⟨r, rs⟩
  · have hC : C = [] := by
      have hp := List.perm_insertionSort byStart C
      rw [h] at hp
      exact (List.Perm.nil_eq hp).symm
    subst hC
    simp
  · have hs := sorted_of_sort C
    rw [h, List.sorted_cons] at hs
    rw [mergeGo_mem_iff rs r hs.1 hs.2 t]
    have hperm : ∀ y : Range, y ∈ C ↔ y ∈ r :: rs := by
      intro y
      rw [← h]
      exact ((List.perm_insertionSort byStart C).mem_iff).symm
    constructor
    · rintro (hx | ⟨y, hy, hy1, hy2⟩)
      · exact ⟨r, (hperm r).mpr (List.mem_cons_self r rs), hx⟩
      · exact ⟨y, (hperm y).mpr (List.mem_cons_of_mem r hy), hy1, hy2⟩
    · rintro ⟨y, hy, hy1, hy2⟩
      rcases List.mem_cons.mp ((hperm y).mp hy) with h | h
      · subst h; exact Or.inl ⟨hy1, hy2⟩
      · exact Or.inr ⟨y, h, hy1, hy2⟩

theorem gapsLoop_start_bound (re : DateTime) :
    ∀ (L : List Range) (cur : DateTime), ∀ g ∈ gapsLoop re cur L,
      cur ≤ g.start ∧ g.stop ≤ re := by
  intro L
  induction L with
  | nil =>
    intro cur g hg
    simp only [gapsLoop] at hg
    split at hg
    · obtain rfl := List.mem_singleton.mp hg
      exact ⟨le_refl _, le_refl _⟩
    · exact absurd hg (List.not_mem_nil g)
  | cons r rs ih =>
    intro cur g hg
    simp only [gapsLoop] at hg
    split at hg
    · split at hg
      · obtain rfl := List.mem_singleton.mp hg
        exact ⟨le_refl _, min_le_right _ _⟩
      · exact absurd hg (List.not_mem_nil g)
    · rcases List.mem_append.mp hg with hg | hg
      · split at hg
        · obtain rfl := List.mem_singleton.mp hg
          exact ⟨le_refl _, min_le_right _ _⟩
        · exact absurd hg (List.not_mem_nil g)
      · have := ih (max cur r.stop) g hg
        exact ⟨le_trans (le_max_left _ _) this.1, this.2⟩

theorem gapsLoop_nonzero (re : DateTime) :
    ∀ (L : List Range) (cur : DateTime), cur < re →
      ∀ g ∈ gapsLoop re cur L, g.start < g.stop := by
  intro L
  induction L with
  | nil =>
    intro cur hcr g hg
    simp only [gapsLoop, if_pos hcr] at hg
    obtain rfl := List.mem_singleton.mp hg
    exact hcr
  | cons r rs ih =>
    intro cur hcr g hg
    simp only [gapsLoop] at hg
    by_cases hbr : re ≤ max cur r.stop
    · rw [if_pos hbr] at hg
      by_cases hm : cur < r.start
      · rw [if_pos hm] at hg
        obtain rfl := List.mem_singleton.mp hg
        exact lt_min hm hcr
      · rw [if_neg hm] at hg
        exact absurd hg (List.not_mem_nil g)
    · rw [if_neg hbr] at hg
      rcases List.mem_append.mp hg with hg | hg
      · by_cases hm : cur < r.start
        · rw [if_pos hm] at hg
          obtain rfl := List.mem_singleton.mp hg
          exact lt_min hm hcr
        · rw [if_neg hm] at hg
          exact absurd hg (List.not_mem_nil g)
      · exact ih (max cur r.stop) (not_le.mp hbr) g hg

theorem gapsLoop_mem (re : DateTime) :
    ∀ (L : List Range) (cur : DateTime), List.Sorted byStart L →
      ∀ t : DateTime,
      (∃ g ∈ gapsLoop re cur L, g.start ≤ t ∧ t < g.stop) ↔
        (cur ≤ t ∧ t < re ∧ ¬ ∃ r ∈ L, r.start ≤ t ∧ t < r.stop) := by
  intro L
  induction L with
  | nil =>
    intro cur _ t
    simp only [gapsLoop]
    split
    · constructor
      · rintro ⟨g, hg, h1, h2⟩
        obtain rfl := List.mem_singleton.mp hg
        exact ⟨h1, h2, by simp⟩
      · rintro ⟨h1, h2, _⟩
        exact ⟨⟨cur, re⟩, List.mem_singleton.mpr rfl, h1, h2⟩
    · rename_i hcr
      constructor
      · rintro ⟨g, hg, _, _⟩; exact absurd hg (List.not_mem_nil g)
      · rintro ⟨h1, h2, _⟩
        exact absurd (lt_of_le_of_lt h1 h2) hcr
  | cons r rs ih =>
    intro cur hS t
    rw [List.sorted_cons] at hS
    obtain ⟨hS1, hS2⟩ := hS
    simp only [gapsLoop]
    by_cases hbr : re ≤ max cur r.stop
    · rw [if_pos hbr]
      by_cases hm : cur < r.start
      · rw [if_pos hm]
        constructor
        · rintro ⟨g, hg, h1, h2⟩
          obtain rfl := List.mem_singleton.mp hg
          have ht1 : t < r.start := lt_of_lt_of_le h2 (min_le_left _ _)
          refine ⟨h1, lt_of_lt_of_le h2 (min_le_right _ _), ?_⟩
          rintro ⟨y, hy, hy1, hy2⟩
          rcases List.mem_cons.mp hy with rfl | hy
          · exact absurd hy1 (not_le.mpr ht1)
          · exact absurd (le_trans (hS1 y hy) hy1) (not_le.mpr ht1)
        · rintro ⟨h1, h2, h3⟩
          refine ⟨⟨cur, min r.start re⟩, List.mem_singleton.mpr rfl, h1,
            lt_min_iff.mpr ⟨?_, h2⟩⟩
          by_contra hge
          push_neg at hge
          have hts : r.stop ≤ t := by
            by_contra hlt2
            push_neg at hlt2
            exact h3 ⟨r, List.mem_cons_self r rs, hge, hlt2⟩
          exact absurd h2 (not_lt.mpr (le_trans hbr (max_le h1 hts)))
      · rw [if_neg hm]
        constructor
        · rintro ⟨g, hg, _, _⟩; exact absurd hg (List.not_mem_nil g)
        · rintro ⟨h1, h2, h3⟩
          have hrs : r.start ≤ cur := not_lt.mp hm
          have hts : r.stop ≤ t := by
            by_contra hlt2
            push_neg at hlt2
            exact h3 ⟨r, List.mem_cons_self r rs, le_trans hrs h1, hlt2⟩
          exact absurd h2 (not_lt.mpr (le_trans hbr (max_le h1 hts)))
    · rw [if_neg hbr]
      by_cases hm : cur < r.start
      · rw [if_pos hm]
        rw [List.singleton_append]
        constructor
        · rintro ⟨g, hg, h1, h2⟩
          rcases List.mem_cons.mp hg with rfl | hg
          · have ht1 : t < r.start := lt_of_lt_of_le h2 (min_le_left _ _)
            refine ⟨h1, lt_of_lt_of_le h2 (min_le_right _ _), ?_⟩
            rintro ⟨y, hy, hy1, hy2⟩
            rcases List.mem_cons.mp hy with rfl | hy
            · exact absurd hy1 (not_le.mpr ht1)
            · exact absurd (le_trans (hS1 y hy) hy1) (not_le.mpr ht1)
          · obtain ⟨ht1, ht2, ht3⟩ := (ih (max cur r.stop) hS2 t).mp
              ⟨g, hg, h1, h2⟩
            refine ⟨le_trans (le_max_left cur r.stop) ht1, ht2, ?_⟩
            rintro ⟨y, hy, hy1, hy2⟩
            rcases List.mem_cons.mp hy with rfl | hy
            · exact absurd hy2 (not_lt.mpr (le_trans (le_max_right cur y.stop) ht1))
            · exact ht3 ⟨y, hy, hy1, hy2⟩
        · rintro ⟨h1, h2, h3⟩
          rcases lt_or_le t (min r.start re) with hlt | hge
          · exact ⟨⟨cur, min r.start re⟩, List.mem_cons_self _ _, h1, hlt⟩
          · have hrs : r.start ≤ t := by
              rcases min_choice r.start re with h | h
              · rw [h] at hge; exact hge
              · rw [h] at hge; exact absurd h2 (not_lt.mpr hge)
            have hts : r.stop ≤ t := by
              by_contra hlt2
              push_neg at hlt2
              exact h3 ⟨r, List.mem_cons_self r rs, hrs, hlt2⟩
            obtain ⟨g, hg, hg1, hg2⟩ := (ih (max cur r.stop) hS2 t).mpr
              ⟨max_le h1 hts, h2,
                fun ⟨y, hy, hy1, hy2⟩ => h3 ⟨y, List.mem_cons_of_mem r hy, hy1, hy2⟩⟩
            exact ⟨g, List.mem_cons_of_mem _ hg, hg1, hg2⟩
      · rw [if_neg hm, List.nil_append]
        have hrs : r.start ≤ cur := not_lt.mp hm
        rw [ih (max cur r.stop) hS2 t]
        constructor
        · rintro ⟨ht1, ht2, ht3⟩
          refine ⟨le_trans (le_max_left _ _) ht1, ht2, ?_⟩
          rintro ⟨y, hy, hy1, hy2⟩
          rcases List.mem_cons.mp hy with rfl | hy
          · exact absurd hy2 (not_lt.mpr (le_trans (le_max_right cur y.stop) ht1))
          · exact ht3 ⟨y, hy, hy1, hy2⟩
        · rintro ⟨h1, h2, h3⟩
          have hts : r.stop ≤ t := by
            by_contra hlt2
            push_neg at hlt2
            exact h3 ⟨r, List.mem_cons_self r rs, le_trans hrs h1, hlt2⟩
          exact ⟨max_le h1 hts, h2,
            fun ⟨y, hy, hy1, hy2⟩ => h3 ⟨y, List.mem_cons_of_mem r hy, hy1, hy2⟩⟩

theorem gapsLoop_chain (re : DateTime) :
    ∀ (L : List Range) (cur : DateTime), cur < re →
      (∀ r ∈ L, r.start < r.stop) → List.Sorted byStart L →
      List.Chain' (fun a b => a.stop ≤ b.start) (gapsLoop re cur L) := by
  intro L
  induction L with
  | nil =>
    intro cur hcr _ _
    simp only [gapsLoop, if_pos hcr]
    exact List.chain'_singleton _
  | cons r rs ih =>
    intro cur hcr hwf hS
    rw [List.sorted_cons] at hS
    simp only [gapsLoop]
    by_cases hbr : re ≤ max cur r.stop
    · rw [if_pos hbr]
      split
      · exact List.chain'_singleton _
      · exact List.chain'_nil
    · rw [if_neg hbr]
      have hrec := ih (max cur r.stop) (not_le.mp hbr)
        (fun y hy => hwf y (List.mem_cons_of_mem r hy)) hS.2
      by_cases hm : cur < r.start
      · rw [if_pos hm, List.singleton_append]
        apply List.chain'_cons'.mpr
        refine ⟨?_, hrec⟩
        intro b hb
        have hbd := (gapsLoop_start_bound re rs (max cur r.stop) b
          (List.mem_of_mem_head? hb)).1
        have h1 : min r.start re ≤ r.start := min_le_left _ _
        have h2 : r.start ≤ r.stop := le_of_lt (hwf r (List.mem_cons_self r rs))
        exact le_trans (le_trans h1 h2) (le_trans (le_max_right cur r.stop) hbd)
      · rw [if_neg hm, List.nil_append]
        exact hrec


theorem cached_point_iff (cached : List CacheEntry) (t : DateTime) :
    (∃ r ∈ cached.map (fun c => (⟨c.1, c.2.1⟩ : Range)),
      r.start ≤ t ∧ t < r.stop) ↔
    (∃ c ∈ cached, c.1 ≤ t ∧ t < c.2.1) := by
  constructor
  · rintro ⟨r, hr, h1, h2⟩
    obtain ⟨c, hc, rfl⟩ := List.mem_map.mp hr
    exact ⟨c, hc, h1, h2⟩
  · rintro ⟨c, hc, h1, h2⟩
    exact ⟨⟨c.1, c.2.1⟩, List.mem_map.mpr ⟨c, hc, rfl⟩, h1, h2⟩

/-- Point characterisation of the gaps: a timestamp lies in some returned
gap iff it lies in the requested window and no cached range covers it. -/
theorem find_missing_mem_iff (rqs rqe : DateTime) (cached : List CacheEntry)
    (t : DateTime) :
    (∃ g ∈ find_missing_ranges rqs rqe cached, g.start ≤ t ∧ t < g.stop) ↔
      (rqs ≤ t ∧ t < rqe ∧ ¬ ∃ c ∈ cached, c.1 ≤ t ∧ t < c.2.1) := by
  unfold find_missing_ranges
  rw [gapsLoop_mem rqe (mergeRanges (cached.map (fun c => ⟨c.1, c.2.1⟩))) rqs
    (mergeRanges_sorted _) t]
  constructor
  · rintro ⟨h1, h2, h3⟩
    exact ⟨h1, h2, fun hc => h3 ((mergeRanges_mem_iff _ t).mpr
      ((cached_point_iff cached t).mpr hc))⟩
  · rintro ⟨h1, h2, h3⟩
    exact ⟨h1, h2, fun hm => h3 ((cached_point_iff cached t).mp
      ((mergeRanges_mem_iff _ t).mp hm))⟩

/-- Cached ranges fully covering the requested window leave no gap. -/
theorem find_missing_covered (rqs rqe : DateTime) (cached : List CacheEntry)
    (hreq : rqs < rqe)
    (hcov : ∀ t : DateTime, rqs ≤ t → t < rqe →
      ∃ c ∈ cached, c.1 ≤ t ∧ t < c.2.1) :
    find_missing_ranges rqs rqe cached = [] := by
  rcases hF : find_missing_ranges rqs rqe cached with _ | ⟨g, gs⟩
  · rfl
  exfalso
  have hgmem : g ∈ find_missing_ranges rqs rqe cached := by
    rw [hF]; exact List.mem_cons_self g gs
  have hnz : g.start < g.stop := by
    unfold find_missing_ranges at hgmem
    exact gapsLoop_nonzero rqe _ rqs hreq g hgmem
  obtain ⟨h1, h2, h3⟩ := (find_missing_mem_iff rqs rqe cached g.start).mp
    ⟨g, hgmem, le_refl _, hnz⟩
  exact h3 (hcov g.start h1 h2)


/-- C1: for every requested range with start < end and every list of cached
ranges (well-formed per the spec's `Range` invariant `start < end`), the list
returned by `find_missing_ranges` is ordered ascending with pairwise
non-overlapping members (consecutive gaps satisfy `g.stop ≤ g'.start`), none
has zero length, and its union together with the parts of the cached ranges
inside `[requested_start, requested_end)` is exactly the requested window;
an empty cached list yields the single gap equal to the requested range, and
cached ranges fully covering the requested range yield an empty list. -/
theorem claim_C1 (rqs rqe : DateTime) (cached : List CacheEntry)
    (hreq : rqs < rqe) (hwf : ∀ c ∈ cached, c.1 < c.2.1) :
    List.Chain' (fun a b => a.stop ≤ b.start)
      (find_missing_ranges rqs rqe cached) ∧
    (∀ g ∈ find_missing_ranges rqs rqe cached, g.start < g.stop) ∧
    (∀ t : DateTime, (rqs ≤ t ∧ t < rqe) ↔
      ((∃ g ∈ find_missing_ranges rqs rqe cached, g.start ≤ t ∧ t < g.stop) ∨
       (∃ c ∈ cached, c.1 ≤ t ∧ t < c.2.1 ∧ rqs ≤ t ∧ t < rqe))) ∧
    (cached = [] → find_missing_ranges rqs rqe cached = [⟨rqs, rqe⟩]) ∧
    ((∀ t : DateTime, rqs ≤ t → t < rqe → ∃ c ∈ cached, c.1 ≤ t ∧ t < c.2.1) →
      find_missing_ranges rqs rqe cached = []) := by
  have hCwf : ∀ r ∈ cached.map (fun c => (⟨c.1, c.2.1⟩ : Range)),
      r.start < r.stop := by
    intro r hr
    obtain ⟨c, hc, rfl⟩ := List.mem_map.mp hr
    exact hwf c hc
  have hMS := mergeRanges_sorted (cached.map (fun c => ⟨c.1, c.2.1⟩))
  have hMwf := mergeRanges_wf (cached.map (fun c => ⟨c.1, c.2.1⟩)) hCwf
  have hCpt : ∀ t : DateTime,
      (∃ r ∈ cached.map (fun c => (⟨c.1, c.2.1⟩ : Range)),
        r.start ≤ t ∧ t < r.stop) ↔
      (∃ c ∈ cached, c.1 ≤ t ∧ t < c.2.1) := by
    intro t
    constructor
    · rintro ⟨r, hr, h1, h2⟩
      obtain ⟨c, hc, rfl⟩ := List.mem_map.mp hr
      exact ⟨c, hc, h1, h2⟩
    · rintro ⟨c, hc, h1, h2⟩
      exact ⟨⟨c.1, c.2.1⟩, List.mem_map.mpr ⟨c, hc, rfl⟩, h1, h2⟩
  have hgm := gapsLoop_mem rqe (mergeRanges (cached.map (fun c => ⟨c.1, c.2.1⟩)))
    rqs hMS
  refine ⟨?_, ?_, ?_, ?_, ?_⟩
  · exact gapsLoop_chain rqe _ rqs hreq hMwf hMS
  · exact gapsLoop_nonzero rqe _ rqs hreq
  · intro t
    constructor
    · rintro ⟨h1, h2⟩
      by_cases hc : ∃ c ∈ cached, c.1 ≤ t ∧ t < c.2.1
      · obtain ⟨c, hcm, hc1, hc2⟩ := hc
        exact Or.inr ⟨c, hcm, hc1, hc2, h1, h2⟩
      · refine Or.inl ((hgm t).mpr ⟨h1, h2, ?_⟩)
        intro hmem
        exact hc ((hCpt t).mp ((mergeRanges_mem_iff _ t).mp hmem))
    · rintro (hg | ⟨c, hcm, hc1, hc2, h1, h2⟩)
      · obtain ⟨ht1, ht2, _⟩ := (hgm t).mp hg
        exact ⟨ht1, ht2⟩
      · exact ⟨h1, h2⟩
  · intro h
    subst h
    unfold find_missing_ranges mergeRanges
    simp only [List.map_nil, List.insertionSort]
    simp only [gapsLoop, if_pos hreq]
  · intro hcov
    rcases hF : find_missing_ranges rqs rqe cached with _ | ⟨g, gs⟩
    · rfl
    exfalso
    have hgmem : g ∈ find_missing_ranges rqs rqe cached := by
      rw [hF]; exact List.mem_cons_self g gs
    have hnz := gapsLoop_nonzero rqe _ rqs hreq g hgmem
    have hbd := gapsLoop_start_bound rqe _ rqs g hgmem
    have hmemg : ∃ g' ∈ find_missing_ranges rqs rqe cached,
        g'.start ≤ g.start ∧ g.start < g'.stop :=
      ⟨g, hgmem, le_refl _, hnz⟩
    obtain ⟨h1, h2, h3⟩ := (hgm g.start).mp hmemg
    exact h3 ((mergeRanges_mem_iff _ g.start).mpr
      ((hCpt g.start).mpr (hcov g.start h1 h2)))

/-- C1 witness: with an empty cache the single gap equals the requested
range, at a concrete requested window. -/
theorem claim_C1_witness :
    find_missing_ranges (mkDate 2020 1 1 (by decide)) (mkDate 2021 1 1 (by decide))
      [] =
      [⟨mkDate 2020 1 1 (by decide), mkDate 2021 1 1 (by decide)⟩] :=
  (claim_C1 (mkDate 2020 1 1 (by decide)) (mkDate 2021 1 1 (by decide)) []
    (by decide) (by decide)).2.2.2.1 rfl

/-- C3 (amended): for every gap with start < end whose end lies below year
9990 — so that no boundary computation can raise `ValueError` (see
`claim_C3_counterexample` for a gap where the real `get_split_ranges`
raises instead of returning) — `get_split_ranges` returns normally (the
faithful error-aware computation agrees with the totalised one) and its
sub-ranges are ordered, contiguous (each sub-range's end equals the next
one's start), non-overlapping (each is nonempty and ends where the next
begins), their union is exactly the gap, every interior boundary is on a
year/month/decade boundary per the partition scheme and only the first
start and last end are clipped to the gap; in particular a `'1d'` gap from
2020-01-01 to 2022-06-01 splits into exactly 3 year-aligned sub-ranges. -/
theorem claim_C3 (gap : Range) (interval : String) (h : gap.start < gap.stop)
    (hy : gap.stop.year ≤ 9989) :
    get_split_rangesE gap.start gap.stop interval =
      some (get_split_ranges gap.start gap.stop interval) ∧
    get_split_ranges gap.start gap.stop interval ≠ [] ∧
    (get_split_ranges gap.start gap.stop interval).head?.map Range.start =
      some gap.start ∧
    (get_split_ranges gap.start gap.stop interval).getLast?.map Range.stop =
      some gap.stop ∧
    List.Chain' (fun a b => a.stop = b.start)
      (get_split_ranges gap.start gap.stop interval) ∧
    (∀ r ∈ get_split_ranges gap.start gap.stop interval, r.start < r.stop) ∧
    (∀ t : DateTime, (gap.start ≤ t ∧ t < gap.stop) ↔
      ∃ r ∈ get_split_ranges gap.start gap.stop interval,
        r.start ≤ t ∧ t < r.stop) ∧
    List.Chain' (fun _ b => isBoundary (granularity interval) b.start)
      (get_split_ranges gap.start gap.stop interval) ∧
    get_split_ranges (mkDate 2020 1 1 (by decide)) (mkDate 2022 6 1 (by decide))
        "1d" =
      [⟨mkDate 2020 1 1 (by decide), mkDate 2021 1 1 (by decide)⟩,
       ⟨mkDate 2021 1 1 (by decide), mkDate 2022 1 1 (by decide)⟩,
       ⟨mkDate 2022 1 1 (by decide), mkDate 2022 6 1 (by decide)⟩] := by
  have hfuel : splitMeasure gap.stop gap.start ≤ splitMeasure gap.stop gap.start :=
    le_refl _
  have hchain := splitLoop_chain (granularity interval) gap.stop
    (splitMeasure gap.stop gap.start) gap.start hfuel
  refine ⟨get_split_rangesE_agree gap.start gap.stop interval hy,
    ?_, ?_, ?_, ?_, ?_, ?_, ?_, by decide⟩
  · unfold get_split_ranges
    obtain ⟨m, hμ⟩ : ∃ m, splitMeasure gap.stop gap.start = m + 1 :=
      ⟨splitMeasure gap.stop gap.start - 1,
        by have := splitMeasure_pos gap.stop gap.start; omega⟩
    rw [hμ]
    simp only [splitLoop, if_pos h]
    exact List.cons_ne_nil _ _
  · unfold get_split_ranges
    obtain ⟨m, hμ⟩ : ∃ m, splitMeasure gap.stop gap.start = m + 1 :=
      ⟨splitMeasure gap.stop gap.start - 1,
        by have := splitMeasure_pos gap.stop gap.start; omega⟩
    rw [hμ]
    simp only [splitLoop, if_pos h, List.head?_cons, Option.map_some]
    rfl
  · obtain ⟨r, hr, hr2⟩ := splitLoop_getLast (granularity interval) gap.stop
      (splitMeasure gap.stop gap.start) gap.start hfuel h
    unfold get_split_ranges
    rw [hr]
    simp [hr2]
  · exact List.Chain'.imp (fun a b hab => hab.1) hchain
  · intro r hr
    exact (splitLoop_mem_bounds (granularity interval) gap.stop
      (splitMeasure gap.stop gap.start) gap.start hfuel r hr).2.1
  · intro t
    exact (splitLoop_mem_iff (granularity interval) gap.stop
      (splitMeasure gap.stop gap.start) gap.start hfuel t).symm
  · exact List.Chain'.imp (fun a b hab => hab.2) hchain

/-- C3 witness: the concrete `'1d'` scenario, obtained by applying the claim
at a concrete gap. -/
theorem claim_C3_witness :
    get_split_ranges (mkDate 2020 1 1 (by decide)) (mkDate 2022 6 1 (by decide))
        "1d" =
      [⟨mkDate 2020 1 1 (by decide), mkDate 2021 1 1 (by decide)⟩,
       ⟨mkDate 2021 1 1 (by decide), mkDate 2022 1 1 (by decide)⟩,
       ⟨mkDate 2022 1 1 (by decide), mkDate 2022 6 1 (by decide)⟩] :=
  (claim_C3 ⟨mkDate 2020 1 1 (by decide), mkDate 2022 6 1 (by decide)⟩ "1d"
    (by decide) (by decide)).2.2.2.2.2.2.2.2

/-- C3 counterexample to the original claim: for the `'1d'` gap
[9999-06-01, 9999-07-01) — a gap with start < end — the real
`get_split_ranges` raises `ValueError` on its first iteration at
`datetime(cur.year + 1, 1, 1)` = `datetime(10000, 1, 1)` instead of
returning the covering sub-range list the claim asserts. -/
theorem claim_C3_counterexample :
    mkDate 9999 6 1 (by decide) < mkDate 9999 7 1 (by decide) ∧
    get_split_rangesE (mkDate 9999 6 1 (by decide))
      (mkDate 9999 7 1 (by decide)) "1d" = none := by decide

/-- C7 (amended): whenever the boundary computation returns (does not raise
`ValueError`), the computed next boundary is strictly greater than the
cursor, so the cursor strictly advances; and for every gap with start < end
whose end lies below year 9990 — so that no boundary computation can raise
(see `claim_C7_counterexample` for a gap where the loop dies in a
`ValueError` and the cursor never reaches the gap's end) — the loop result
is stable for any iteration bound at least `splitMeasure` (the loop
completes within the bound), returns normally, and the cursor reaches the
gap's end (the last emitted sub-range ends exactly at the gap's end). -/
theorem claim_C7 (s e : DateTime) (interval : String) (h : s < e)
    (hy : e.year ≤ 9989) :
    (∀ (cur n : DateTime), nextSplitE (granularity interval) cur = some n →
      cur < n) ∧
    (∀ fuel, splitMeasure e s ≤ fuel →
      splitLoopE (granularity interval) e fuel s =
        get_split_rangesE s e interval) ∧
    get_split_rangesE s e interval = some (get_split_ranges s e interval) ∧
    (get_split_rangesE s e interval).map
        (fun rs => rs.getLast?.map Range.stop) = some (some e) := by
  have hagree := get_split_rangesE_agree s e interval hy
  refine ⟨fun cur n hn => nextSplitE_lt hn, ?_, hagree, ?_⟩
  · intro fuel hf
    rw [splitLoopE_agree (granularity interval) e hy fuel s,
      splitLoop_fuel (granularity interval) e fuel s hf, hagree]
    rfl
  · obtain ⟨r, hr, hr2⟩ := splitLoop_getLast (granularity interval) e
      (splitMeasure e s) s (le_refl _) h
    rw [hagree]
    show some (Option.map Range.stop
      (get_split_ranges s e interval).getLast?) = some (some e)
    unfold get_split_ranges
    rw [hr]
    simp [hr2]

/-- C7 witness: at a concrete gap, running the faithful loop with a larger
iteration bound than `splitMeasure` yields the same (normal) result. -/
theorem claim_C7_witness :
    splitLoopE (granularity "1d") (mkDate 2021 1 1 (by decide)) 100
        (mkDate 2020 1 1 (by decide)) =
      get_split_rangesE (mkDate 2020 1 1 (by decide))
        (mkDate 2021 1 1 (by decide)) "1d" :=
  (claim_C7 (mkDate 2020 1 1 (by decide)) (mkDate 2021 1 1 (by decide)) "1d"
    (by decide) (by decide)).2.1 100 (by decide)

/-- C7 counterexample to the original claim: for the `'1mo'` (decade
granularity) gap [9991-01-01, 9992-01-01) — a gap with start < end — the
boundary computation `datetime((cur.year // 10 + 1) * 10, 1, 1)` =
`datetime(10000, 1, 1)` raises `ValueError` on the first iteration: the
loop dies instead of advancing the cursor to the gap's end. -/
theorem claim_C7_counterexample :
    mkDate 9991 1 1 (by decide) < mkDate 9992 1 1 (by decide) ∧
    get_split_rangesE (mkDate 9991 1 1 (by decide))
      (mkDate 9992 1 1 (by decide)) "1mo" = none := by decide

/-- C9: the partition-scheme lookup is a pure, total function from interval
codes to granularities: every listed interval maps to its scheme value and
every unlisted interval falls back to the default `'year'`. -/
theorem claim_C9 :
    (granularity "1d" = Split.year ∧ granularity "1h" = Split.month ∧
     granularity "1wk" = Split.year ∧ granularity "1mo" = Split.decade ∧
     granularity "5d" = Split.year ∧ granularity "30m" = Split.month ∧
     granularity "15m" = Split.month ∧ granularity "5m" = Split.month ∧
     granularity "1m" = Split.month) ∧
    (∀ interval : String, interval ∉ INTERVAL_SPLIT.map Prod.fst →
      granularity interval = Split.year) := by
  constructor
  · exact ⟨rfl, rfl, rfl, rfl, rfl, rfl, rfl, rfl, rfl⟩
  · intro i hi
    simp only [INTERVAL_SPLIT, List.map, List.mem_cons, List.not_mem_nil,
      or_false, not_or] at hi
    obtain ⟨h1, h2, h3, h4, h5, h6, h7, h8, h9⟩ := hi
    have e1 : (i == "1d") = false := beq_eq_false_iff_ne.mpr h1
    have e2 : (i == "1h") = false := beq_eq_false_iff_ne.mpr h2
    have e3 : (i == "1wk") = false := beq_eq_false_iff_ne.mpr h3
    have e4 : (i == "1mo") = false := beq_eq_false_iff_ne.mpr h4
    have e5 : (i == "5d") = false := beq_eq_false_iff_ne.mpr h5
    have e6 : (i == "30m") = false := beq_eq_false_iff_ne.mpr h6
    have e7 : (i == "15m") = false := beq_eq_false_iff_ne.mpr h7
    have e8 : (i == "5m") = false := beq_eq_false_iff_ne.mpr h8
    have e9 : (i == "1m") = false := beq_eq_false_iff_ne.mpr h9
    simp only [granularity, INTERVAL_SPLIT, List.lookup, e1, e2, e3, e4, e5,
      e6, e7, e8, e9]
    rfl

/-- C9 witness: an unlisted interval code falls back to `'year'`. -/
theorem claim_C9_witness : granularity "2h" = Split.year :=
  claim_C9.2 "2h" (by decide)

/-- Decimal digit to character. -/
def digitChar (n : Nat) : Char :=
  match n with
  | 0 => '0' | 1 => '1' | 2 => '2' | 3 => '3' | 4 => '4'
  | 5 => '5' | 6 => '6' | 7 => '7' | 8 => '8' | _ => '9'

/-- Character to decimal digit value. -/
def digitVal (c : Char) : Nat := c.toNat - 48

/-- The `[0-9]` character class of the cache-filename regex. -/
def isDigitChar (c : Char) : Bool := 48 ≤ c.toNat && c.toNat ≤ 57

/-- Two-digit zero-padded field (`%m`, `%d`). -/
def dig2 (n : Nat) : List Char := [digitChar (n / 10 % 10), digitChar (n % 10)]

/-- Four-digit zero-padded field (`%Y`; Python documents `%Y` as
`0001 .. 9999`, and `datetime` years never exceed 9999). -/
def dig4 (n : Nat) : List Char :=
  [digitChar (n / 1000 % 10), digitChar (n / 100 % 10),
   digitChar (n / 10 % 10), digitChar (n % 10)]

/-- `d.strftime('%Y-%m-%d')`: the ISO date string of a datetime. -/
def formatISO (d : DateTime) : String :=
  ⟨dig4 d.year ++ '-' :: (dig2 d.month ++ '-' :: dig2 d.day)⟩

/-- Shape of one date group `[0-9]{4}-[0-9]{2}-[0-9]{2}` of the
cache-filename regex. -/
def dateShape (cs : List Char) : Bool :=
  match cs with
  | [y1, y2, y3, y4, s1, m1, m2, s2, d1, d2] =>
      isDigitChar y1 && isDigitChar y2 && isDigitChar y3 && isDigitChar y4 &&
      (s1 = '-') && isDigitChar m1 && isDigitChar m2 && (s2 = '-') &&
      isDigitChar d1 && isDigitChar d2
  | _ => false

/-- Full match of a directory entry against the cache filename pattern
`{interval}-([0-9]{4}-[0-9]{2}-[0-9]{2})-([0-9]{4}-[0-9]{2}-[0-9]{2})\.csv`
(both date groups have fixed length, so the regex match is this
deterministic decomposition); returns the two captured date groups. -/
def matchCacheName (interval fname : String) : Option (List Char × List Char) :=
  let ic := interval.data
  let cs := fname.data
  if cs.take ic.length = ic then
    match cs.drop ic.length with
    | '-' :: rest =>
        let d1 := rest.take 10
        let r2 := rest.drop 10
        if dateShape d1 then
          match r2 with
          | '-' :: rest2 =>
              let d2 := rest2.take 10
              let r3 := rest2.drop 10
              if dateShape d2 ∧ r3 = ['.', 'c', 's', 'v'] then some (d1, d2)
              else none
          | _ => none
        else none
    | _ => none
  else none

/-- `dateutil` parse of a captured ISO date group: digits are recombined and
the calendar validity checks of the `datetime` constructor are applied (an
out-of-range month or day raises, modelled as `none`). -/
def parseISOChars (cs : List Char) : Option DateTime :=
  match cs with
  | [y1, y2, y3, y4, _, m1, m2, _, d1, d2] =>
      let y := ((digitVal y1 * 10 + digitVal y2) * 10 + digitVal y3) * 10 +
        digitVal y4
      let m := digitVal m1 * 10 + digitVal m2
      let d := digitVal d1 * 10 + digitVal d2
      if h : 1 ≤ y ∧ 1 ≤ m ∧ m ≤ 12 ∧ 1 ≤ d ∧ d ≤ daysInMonth y m then
        some ⟨y, m, d, 0, h.1, h.2.1, h.2.2.1, h.2.2.2.1, h.2.2.2.2, by decide⟩
      else none
  | _ => none

/-- Processing of one directory entry by `scan_cache_ranges`: pattern match,
then parse of both boundary dates; any failure skips the entry. -/
def scanEntry (interval dir fname : String) : Option CacheEntry :=
  match matchCacheName interval fname with
  | some (s, e) =>
      match parseISOChars s, parseISOChars e with
      | some sd, some ed => some (sd, ed, (dir, fname))
      | _, _ => none
  | none => none

/-- `scan_cache_ranges(ticker, interval, cache_dir)`: the directory listing
of `cache_dir/ticker` is passed explicitly (`none` when the ticker directory
does not exist); each entry is matched against the filename pattern and its
boundary dates parsed, and entries failing either step are skipped. -/
def scan_cache_ranges (interval dir : String) (listing : Option (List String)) :
    List CacheEntry :=
  match listing with
  | none => []
  | some files => files.filterMap (scanEntry interval dir)

/-- C8: `scan_cache_ranges` returns an empty list (rather than raising) when
the ticker directory does not exist; entries that do not match the
`interval-{start}-{end}` pattern are skipped without aborting the scan, as
are matched entries whose boundary dates fail to parse. -/
theorem claim_C8 (interval dir : String) :
    scan_cache_ranges interval dir none = [] ∧
    (∀ (l1 l2 : List String) (f : String), matchCacheName interval f = none →
      scan_cache_ranges interval dir (some (l1 ++ f :: l2)) =
        scan_cache_ranges interval dir (some (l1 ++ l2))) ∧
    (∀ (l1 l2 : List String) (f : String) (s e : List Char),
      matchCacheName interval f = some (s, e) →
      (parseISOChars s = none ∨ parseISOChars e = none) →
      scan_cache_ranges interval dir (some (l1 ++ f :: l2)) =
        scan_cache_ranges interval dir (some (l1 ++ l2))) := by
  refine ⟨rfl, ?_, ?_⟩
  · intro l1 l2 f hm
    simp only [scan_cache_ranges, List.filterMap_append, List.filterMap_cons,
      scanEntry, hm]
  · intro l1 l2 f s e hm hp
    simp only [scan_cache_ranges, List.filterMap_append, List.filterMap_cons,
      scanEntry, hm]
    rcases hp with hp | hp
    · rw [hp]
    · rw [hp]
      rcases hq : parseISOChars s with _ | sd <;> rfl

/-- C8 witness: a non-matching entry and an entry with an unparseable month
are both skipped at concrete inputs. -/
theorem claim_C8_witness :
    scan_cache_ranges "1d" "cache/AAPL" (some (["notes.txt"] ++ [])) =
      scan_cache_ranges "1d" "cache/AAPL" (some ([] ++ [])) ∧
    scan_cache_ranges "1d" "cache/AAPL"
        (some ([] ++ "1d-2020-13-01-2020-12-31.csv" :: [])) =
      scan_cache_ranges "1d" "cache/AAPL" (some ([] ++ [])) :=
  ⟨(claim_C8 "1d" "cache/AAPL").2.1 [] [] "notes.txt" (by decide),
   (claim_C8 "1d" "cache/AAPL").2.2 [] [] "1d-2020-13-01-2020-12-31.csv"
     ['2', '0', '2', '0', '-', '1', '3', '-', '0', '1']
     ['2', '0', '2', '0', '-', '1', '2', '-', '3', '1']
     (by decide) (Or.inl (by decide))⟩

/-- The default cache root used by `moonboy/utils/file_management.get_fname`
when no `cache_dir` is given: the package-relative directory
`<package>/data/historical` (an opaque path constant in this model). -/
def defaultCacheRoot : String := "moonboy/data/historical"

/-- `moonboy/utils/file_management.get_fname(ticker, interval, start_dt,
end_dt, cache_dir)`: builds `{cache_dir}/{ticker}/{interval}-{start_dt}-{end_dt}.csv`. -/
def fm_get_fname (ticker interval start_dt end_dt : String)
    (cache_dir : Option String) : String :=
  (cache_dir.getD defaultCacheRoot) ++ "/" ++ ticker ++ "/" ++ interval ++
    "-" ++ start_dt ++ "-" ++ end_dt ++ ".csv"

/-- A date argument of the loader's `get_fname`: either a `datetime`/`date`
object (which has `strftime` and is formatted as `%Y-%m-%d`) or an already
formatted string (used as is). -/
inductive DateArg where
  | dt (d : DateTime)
  | str (s : String)

/-- The `hasattr(x, 'strftime')` normalisation in the loader's `get_fname`. -/
def DateArg.toStr : DateArg → String
  | .dt d => formatISO d
  | .str s => s

/-- `moonboy/data/loader.get_fname(ticker, interval, start_dt, end_dt,
cache_dir)`: normalises datetime arguments to date-only strings, then builds
the partition path (delegating to the utils helper when `cache_dir` is
`None`). -/
def get_fname (ticker interval : String) (start_dt end_dt : DateArg)
    (cache_dir : Option String) : String :=
  match cache_dir with
  | none => fm_get_fname ticker interval start_dt.toStr end_dt.toStr none
  | some cd => cd ++ "/" ++ ticker ++ "/" ++ interval ++ "-" ++
      start_dt.toStr ++ "-" ++ end_dt.toStr ++ ".csv"

/-- C10: `get_fname` returns the same path whether the boundary dates are
passed as `datetime`/`date` objects or as their ISO `YYYY-MM-DD` strings,
and the `.date()`-truncated arguments used by `load_data`'s existence check
yield the same path as the full datetimes passed to `download_data`'s cache
write. -/
theorem claim_C10 (ticker interval : String) (cd : Option String)
    (a b : DateTime) :
    get_fname ticker interval (.dt a) (.dt b) cd =
      get_fname ticker interval (.str (formatISO a)) (.str (formatISO b)) cd ∧
    get_fname ticker interval (.dt a.dateOnly) (.dt b.dateOnly) cd =
      get_fname ticker interval (.dt a) (.dt b) cd := by
  have h1 : formatISO a.dateOnly = formatISO a := rfl
  have h2 : formatISO b.dateOnly = formatISO b := rfl
  cases cd
  · exact ⟨rfl, by simp only [get_fname, DateArg.toStr, h1, h2]⟩
  · exact ⟨rfl, by simp only [get_fname, DateArg.toStr, h1, h2]⟩

/-- Rows of a pandas DataFrame of bars, in file order: (timestamp, payload)
pairs, the payload standing for the OHLCV fields. -/
abbrev Rows (β : Type) := List (DateTime × β)

/-- The cache directory tree: an association list from file locators to the
rows stored in each partition file. -/
abbrev FS (β : Type) := List (FileKey × Rows β)

/-- The vendor collaborator `get_historical_data(ticker, interval, start,
end)`, modelled as a pure function. -/
abbrev Vendor (β : Type) := String → String → DateTime → DateTime → Rows β

/-- `os.path.exists` / `pd.read_csv`: look a file up in the tree. -/
def fsLookup {β : Type} (fs : FS β) (k : FileKey) : Option (Rows β) :=
  List.lookup k fs

/-- Names of the entries of one directory, in tree order (`os.listdir`). -/
def dirNames {β : Type} (fs : FS β) (dir : String) : List String :=
  (fs.filter (fun kv => kv.1.1 == dir)).map (fun kv => kv.1.2)

/-- `os.path.exists(ticker_dir)` plus `os.listdir(ticker_dir)`: `none` when
the directory does not exist (no file of the tree lives in it). -/
def fsListing {β : Type} (fs : FS β) (dir : String) : Option (List String) :=
  if dirNames fs dir = [] then none else some (dirNames fs dir)

/-- The (directory, filename) pair built by `get_fname` with an explicit
`cache_dir`: `({cache_dir}/{ticker}, {interval}-{start}-{end}.csv)`. -/
def cacheKey (cacheDir ticker interval : String) (a b : DateArg) : FileKey :=
  (cacheDir ++ "/" ++ ticker,
   interval ++ "-" ++ a.toStr ++ "-" ++ b.toStr ++ ".csv")

theorem get_fname_cacheKey (cacheDir ticker interval : String) (a b : DateArg) :
    get_fname ticker interval a b (some cacheDir) =
      (cacheKey cacheDir ticker interval a b).1 ++ "/" ++
        (cacheKey cacheDir ticker interval a b).2 := by
  simp [get_fname, cacheKey, String.append_assoc]

/-- `save_data(data, filename)`: write the rows at the path, overwriting an
existing file (`DataFrame.to_csv`). -/
def save_data {β : Type} (fs : FS β) (k : FileKey) (rows : Rows β) : FS β :=
  if (fsLookup fs k).isSome then
    fs.map (fun kv => if kv.1 = k then (k, rows) else kv)
  else fs ++ [(k, rows)]

/-- `download_data(vendor, ticker, interval, start, end, cache_data,
cache_dir)`: fetch from the vendor and, when caching is on, write the
result (empty or not) to the partition path unless the file already
exists. -/
def download_data {β : Type} (vendor : Vendor β) (ticker interval : String)
    (sd ed : DateTime) (cache_data : Bool) (cacheDir : String) (fs : FS β) :
    Rows β × FS β :=
  let data := vendor ticker interval sd ed
  if cache_data then
    let key := cacheKey cacheDir ticker interval (.dt sd) (.dt ed)
    (data, if (fsLookup fs key).isSome then fs else save_data fs key data)
  else (data, fs)

/-- One iteration of the fetch loop of `load_data` over a split sub-range:
skip when the partition file exists; otherwise call `download_data` (which
persists the fetched rows) and, when the result is non-empty, `save_data`
again and record the new file; the third component logs every vendor
call. -/
def fetchStep {β : Type} (vendor : Vendor β) (ticker interval cacheDir : String)
    (st : FS β × List CacheEntry × List (DateTime × DateTime)) (rng : Range) :
    FS β × List CacheEntry × List (DateTime × DateTime) :=
  let key := cacheKey cacheDir ticker interval (.dt rng.start.dateOnly)
    (.dt rng.stop.dateOnly)
  if (fsLookup st.1 key).isSome then st
  else
    let dl := download_data vendor ticker interval rng.start rng.stop true
      cacheDir st.1
    if dl.1.isEmpty then (dl.2, st.2.1, st.2.2 ++ [(rng.start, rng.stop)])
    else (save_data dl.2 key dl.1, st.2.1 ++ [(rng.start, rng.stop, key)],
      st.2.2 ++ [(rng.start, rng.stop)])

/-- The ticker directory `os.path.join(cache_dir, ticker)`. -/
def loadDir (cacheDir ticker : String) : String := cacheDir ++ "/" ++ ticker

/-- Step 1 of `load_data`: scan the cache. -/
def load_scan {β : Type} (ticker interval cacheDir : String) (fs : FS β) :
    List CacheEntry :=
  scan_cache_ranges interval (loadDir cacheDir ticker)
    (fsListing fs (loadDir cacheDir ticker))

/-- Steps 2-3 of `load_data`: the split sub-ranges of all missing gaps, in
processing order. -/
def load_splits {β : Type} (ticker interval : String) (sd ed : DateTime)
    (cacheDir : String) (fs : FS β) : List Range :=
  (find_missing_ranges sd ed (load_scan ticker interval cacheDir fs)).flatMap
    (fun g => get_split_ranges g.start g.stop interval)

/-- Step 3 of `load_data`: fold the fetch loop over the split sub-ranges,
returning the updated tree, the new files and the vendor-call log. -/
def load_fetch {β : Type} (vendor : Vendor β) (ticker interval : String)
    (sd ed : DateTime) (cacheDir : String) (fs : FS β) :
    FS β × List CacheEntry × List (DateTime × DateTime) :=
  (load_splits ticker interval sd ed cacheDir fs).foldl
    (fetchStep vendor ticker interval cacheDir) (fs, [], [])

/-- Step 4 of `load_data`: all files (cached and new) overlapping the
requested window. -/
def load_relevant {β : Type} (vendor : Vendor β) (ticker interval : String)
    (sd ed : DateTime) (cacheDir : String) (fs : FS β) : List CacheEntry :=
  (load_scan ticker interval cacheDir fs ++
    (load_fetch vendor ticker interval sd ed cacheDir fs).2.1).filter
    (fun f => !(decide (f.2.1 ≤ sd) || decide (ed ≤ f.1)))

/-- The rows read back from one relevant file (`pd.read_csv`). -/
def load_fileRows {β : Type} (vendor : Vendor β) (ticker interval : String)
    (sd ed : DateTime) (cacheDir : String) (fs : FS β) (f : CacheEntry) :
    Rows β :=
  (fsLookup (load_fetch vendor ticker interval sd ed cacheDir fs).1 f.2.2).getD []

/-- Step 5 of `load_data`: concatenation (`pd.concat`) of the rows of the
relevant files in processing order. -/
def load_rows {β : Type} (vendor : Vendor β) (ticker interval : String)
    (sd ed : DateTime) (cacheDir : String) (fs : FS β) : Rows β :=
  ((load_relevant vendor ticker interval sd ed cacheDir fs).map
    (load_fileRows vendor ticker interval sd ed cacheDir fs)).flatten

/-- `df[~df.index.duplicated(keep='last')]`: keep, in position order, the
last occurrence of each timestamp. -/
def dedupKeepLast {β : Type} : Rows β → Rows β
  | [] => []
  | r :: rs =>
      if rs.any (fun x => decide (x.1 = r.1)) then dedupKeepLast rs
      else r :: dedupKeepLast rs

/-- The timestamp order of `sort_index()`. -/
def byTs {β : Type} (a b : DateTime × β) : Prop := a.1 ≤ b.1

instance {β : Type} : DecidableRel (byTs (β := β)) := fun a b =>
  inferInstanceAs (Decidable (a.1 ≤ b.1))

instance {β : Type} : IsTotal (DateTime × β) byTs := ⟨fun a b => le_total a.1 b.1⟩

instance {β : Type} : IsTrans (DateTime × β) byTs :=
  ⟨fun _ _ _ h1 h2 => le_trans h1 h2⟩

/-- The final merge of `load_data`: deduplicate keeping the last occurrence,
trim to `start <= timestamp < end`, sort by timestamp. -/
def mergeTrim {β : Type} (sd ed : DateTime) (rows : Rows β) : Rows β :=
  List.insertionSort byTs
    ((dedupKeepLast rows).filter (fun x => decide (sd ≤ x.1) && decide (x.1 < ed)))

/-- `load_data(vendor, ticker, interval, start_date, end_date, cache_data,
cache_dir)`: scan, find gaps, split, fetch-and-persist, then merge, dedup,
trim and sort the relevant partitions.  Returns the bar rows, the updated
cache tree and the vendor-call log. -/
def load_data {β : Type} (vendor : Vendor β) (ticker interval : String)
    (sd ed : DateTime) (cacheDir : String) (fs : FS β) :
    Rows β × FS β × List (DateTime × DateTime) :=
  ((if (load_relevant vendor ticker interval sd ed cacheDir fs).isEmpty then []
    else mergeTrim sd ed (load_rows vendor ticker interval sd ed cacheDir fs)),
   (load_fetch vendor ticker interval sd ed cacheDir fs).1,
   (load_fetch vendor ticker interval sd ed cacheDir fs).2.2)

/-- C6: every bar returned by `load_data` has its timestamp inside the
half-open requested window, and the returned sequence is sorted by
timestamp ascending. -/
theorem claim_C6 {β : Type} (vendor : Vendor β) (ticker interval : String)
    (sd ed : DateTime) (cacheDir : String) (fs : FS β) :
    (∀ b ∈ (load_data vendor ticker interval sd ed cacheDir fs).1,
      sd ≤ b.1 ∧ b.1 < ed) ∧
    List.Sorted byTs (load_data vendor ticker interval sd ed cacheDir fs).1 := by
  constructor
  · intro b hb
    simp only [load_data] at hb
    split at hb
    · exact absurd hb (List.not_mem_nil b)
    · simp only [mergeTrim, List.mem_insertionSort, List.mem_filter,
        Bool.and_eq_true, decide_eq_true_eq] at hb
      exact ⟨hb.2.1, hb.2.2⟩
  · simp only [load_data]
    split
    · exact List.sorted_nil
    · exact List.sorted_insertionSort byTs _

/-- The bar `(t, v)` is the last row with timestamp `t` in the concatenated
rows `l` (the row kept by `duplicated(keep='last')`). -/
def isLastOcc {β : Type} (l : Rows β) (t : DateTime) (v : β) : Prop :=
  ∃ l1 l2, l = l1 ++ (t, v) :: l2 ∧ ∀ x ∈ l2, x.1 ≠ t

theorem isLastOcc_nil {β : Type} (t : DateTime) (v : β) :
    ¬ isLastOcc [] t v := by
  rintro ⟨l1, l2, h, -⟩
  obtain ⟨-, h2⟩ := List.append_eq_nil.mp h.symm
  exact List.cons_ne_nil _ _ h2

theorem isLastOcc_cons {β : Type} (a : DateTime × β) (l : Rows β)
    (t : DateTime) (v : β) :
    isLastOcc (a :: l) t v ↔
      ((a = (t, v) ∧ ∀ x ∈ l, x.1 ≠ t) ∨ isLastOcc l t v) := by
  constructor
  · rintro ⟨l1, l2, h, hfree⟩
    rcases l1 with _ | ⟨b, l1⟩
    · rw [List.nil_append] at h
      injection h with h1 h2
      subst h1; subst h2
      exact Or.inl ⟨rfl, hfree⟩
    · rw [List.cons_append] at h
      injection h with h1 h2
      exact Or.inr ⟨l1, l2, h2, hfree⟩
  · rintro (⟨rfl, hfree⟩ | ⟨l1, l2, h, hfree⟩)
    · exact ⟨[], l, rfl, hfree⟩
    · exact ⟨a :: l1, l2, by rw [h, List.cons_append], hfree⟩

theorem isLastOcc_append {β : Type} (A B : Rows β) (t : DateTime) (v : β) :
    isLastOcc (A ++ B) t v ↔
      (isLastOcc B t v ∨ (isLastOcc A t v ∧ ∀ x ∈ B, x.1 ≠ t)) := by
  induction A with
  | nil =>
    rw [List.nil_append]
    constructor
    · exact fun h => Or.inl h
    · rintro (h | ⟨h, -⟩)
      · exact h
      · exact absurd h (isLastOcc_nil t v)
  | cons a A ih =>
    rw [List.cons_append, isLastOcc_cons, isLastOcc_cons, ih]
    constructor
    · rintro (⟨ha, hfree⟩ | h | ⟨h, hfree⟩)
      · exact Or.inr ⟨Or.inl ⟨ha, fun x hx => hfree x (List.mem_append_left B hx)⟩,
          fun x hx => hfree x (List.mem_append_right A hx)⟩
      · exact Or.inl h
      · exact Or.inr ⟨Or.inr h, hfree⟩
    · rintro (h | ⟨⟨ha, hfree⟩ | h, hfreeB⟩)
      · exact Or.inr (Or.inl h)
      · exact Or.inl ⟨ha,
          fun x hx => (List.mem_append.mp hx).elim (hfree x) (hfreeB x)⟩
      · exact Or.inr (Or.inr ⟨h, hfreeB⟩)

theorem isLastOcc_mem {β : Type} {l : Rows β} {t : DateTime} {v : β}
    (h : isLastOcc l t v) : (t, v) ∈ l := by
  obtain ⟨l1, l2, rfl, -⟩ := h
  exact List.mem_append_right l1 (List.mem_cons_self _ _)

theorem dedupKeepLast_subset {β : Type} :
    ∀ (l : Rows β) (x : DateTime × β), x ∈ dedupKeepLast l → x ∈ l := by
  intro l
  induction l with
  | nil => intro x hx; exact absurd hx (List.not_mem_nil x)
  | cons r rs ih =>
    intro x hx
    simp only [dedupKeepLast] at hx
    split at hx
    · exact List.mem_cons_of_mem r (ih x hx)
    · rcases List.mem_cons.mp hx with h | h
      · subst h; exact List.mem_cons_self x rs
      · exact List.mem_cons_of_mem r (ih x h)

theorem dedupKeepLast_mem_iff {β : Type} (l : Rows β) (t : DateTime) (v : β) :
    (t, v) ∈ dedupKeepLast l ↔ isLastOcc l t v := by
  induction l with
  | nil =>
    constructor
    · intro h; exact absurd h (List.not_mem_nil _)
    · intro h; exact absurd h (isLastOcc_nil t v)
  | cons r rs ih =>
    rw [isLastOcc_cons]
    simp only [dedupKeepLast]
    split
    · rename_i hany
      rw [ih]
      constructor
      · exact fun h => Or.inr h
      · rintro (⟨ha, hfree⟩ | h)
        · obtain ⟨x, hx, hx1⟩ := List.any_eq_true.mp hany
          have hx2 : x.1 = r.1 := of_decide_eq_true hx1
          have hx3 : r.1 = t := by rw [ha]
          exact absurd (hx2.trans hx3) (hfree x hx)
        · exact h
    · rename_i hany
      rw [List.mem_cons, ih]
      constructor
      · rintro (h | h)
        · refine Or.inl ⟨h.symm, ?_⟩
          intro x hx hxe
          apply hany
          refine List.any_eq_true.mpr ⟨x, hx, decide_eq_true ?_⟩
          rw [hxe, ← h]
        · exact Or.inr h
      · rintro (⟨ha, hfree⟩ | h)
        · exact Or.inl ha.symm
        · exact Or.inr h

theorem dedupKeepLast_nodup {β : Type} (l : Rows β) :
    ((dedupKeepLast l).map Prod.fst).Nodup := by
  induction l with
  | nil => simp [dedupKeepLast]
  | cons r rs ih =>
    simp only [dedupKeepLast]
    split
    · exact ih
    · rename_i hany
      simp only [List.map_cons]
      refine List.nodup_cons.mpr ⟨?_, ih⟩
      intro hmem
      obtain ⟨x, hx, hx1⟩ := List.mem_map.mp hmem
      apply hany
      exact List.any_eq_true.mpr
        ⟨x, dedupKeepLast_subset rs x hx, decide_eq_true hx1⟩

/-- C2: the sequence returned by `load_data` has exactly one bar per
timestamp; a bar is returned iff it lies in the requested window and is the
last row with its timestamp in the concatenation of the relevant
partitions' rows in processing order; consequently for a duplicated
timestamp the bar kept is from the partition processed last among those
containing that timestamp. -/
theorem claim_C2 {β : Type} (vendor : Vendor β) (ticker interval : String)
    (sd ed : DateTime) (cacheDir : String) (fs : FS β) :
    (((load_data vendor ticker interval sd ed cacheDir fs).1.map
      Prod.fst).Nodup) ∧
    (∀ (t : DateTime) (v : β),
      (t, v) ∈ (load_data vendor ticker interval sd ed cacheDir fs).1 ↔
      (sd ≤ t ∧ t < ed ∧
        isLastOcc (load_rows vendor ticker interval sd ed cacheDir fs) t v)) ∧
    (∀ (t : DateTime) (v : β) (pre post : List CacheEntry) (f : CacheEntry),
      load_relevant vendor ticker interval sd ed cacheDir fs =
        pre ++ f :: post →
      (t, v) ∈ (load_data vendor ticker interval sd ed cacheDir fs).1 →
      (∃ w : β, (t, w) ∈ load_fileRows vendor ticker interval sd ed cacheDir fs f) →
      (∀ g ∈ post, ∀ w : β,
        (t, w) ∉ load_fileRows vendor ticker interval sd ed cacheDir fs g) →
      (t, v) ∈ load_fileRows vendor ticker interval sd ed cacheDir fs f) := by
  have key2 : ∀ (t : DateTime) (v : β),
      (t, v) ∈ (load_data vendor ticker interval sd ed cacheDir fs).1 ↔
      (sd ≤ t ∧ t < ed ∧
        isLastOcc (load_rows vendor ticker interval sd ed cacheDir fs) t v) := by
    intro t v
    simp only [load_data]
    split
    · rename_i hemp
      have hrel : load_relevant vendor ticker interval sd ed cacheDir fs = [] :=
        List.isEmpty_iff.mp hemp
      have hrows : load_rows vendor ticker interval sd ed cacheDir fs = [] := by
        rw [load_rows, hrel]
        rfl
      rw [hrows]
      constructor
      · intro h; exact absurd h (List.not_mem_nil _)
      · rintro ⟨-, -, h⟩; exact absurd h (isLastOcc_nil t v)
    · simp only [mergeTrim, List.mem_insertionSort, List.mem_filter,
        Bool.and_eq_true, decide_eq_true_eq, dedupKeepLast_mem_iff]
      constructor
      · rintro ⟨h1, h2, h3⟩; exact ⟨h2, h3, h1⟩
      · rintro ⟨h1, h2, h3⟩; exact ⟨h3, h1, h2⟩
  refine ⟨?_, key2, ?_⟩
  · simp only [load_data]
    split
    · exact List.nodup_nil
    · have h1 : List.Sublist
          ((dedupKeepLast
            (load_rows vendor ticker interval sd ed cacheDir fs)).filter
              (fun x => decide (sd ≤ x.1) && decide (x.1 < ed)))
          (dedupKeepLast (load_rows vendor ticker interval sd ed cacheDir fs)) :=
        List.filter_sublist _
      have h2 := h1.map Prod.fst
      have h3 := (dedupKeepLast_nodup
        (load_rows vendor ticker interval sd ed cacheDir fs)).sublist h2
      have h4 := (List.perm_insertionSort byTs
        ((dedupKeepLast (load_rows vendor ticker interval sd ed cacheDir fs)).filter
          (fun x => decide (sd ≤ x.1) && decide (x.1 < ed)))).map Prod.fst
      exact (h4.nodup_iff).mpr h3
  · intro t v pre post f hrel hmem hw hfree
    obtain ⟨-, -, hlast⟩ := (key2 t v).mp hmem
    have hrows : load_rows vendor ticker interval sd ed cacheDir fs =
        ((pre.map (load_fileRows vendor ticker interval sd ed cacheDir fs)).flatten ++
          (load_fileRows vendor ticker interval sd ed cacheDir fs f ++
            ((post.map (load_fileRows vendor ticker interval sd ed cacheDir fs)).flatten))) := by
      rw [load_rows, hrel, List.map_append, List.flatten_append, List.map_cons,
        List.flatten_cons]
    rw [hrows] at hlast
    have hBfree : ∀ x ∈ (post.map
        (load_fileRows vendor ticker interval sd ed cacheDir fs)).flatten,
        x.1 ≠ t := by
      intro x hx hxt
      obtain ⟨lst, hlst, hxl⟩ := List.mem_flatten.mp hx
      obtain ⟨g, hg, rfl⟩ := List.mem_map.mp hlst
      obtain ⟨x1, x2⟩ := x
      have hxt2 : x1 = t := hxt
      subst hxt2
      exact hfree g hg x2 hxl
    rcases (isLastOcc_append _ _ t v).mp hlast with hin | ⟨-, hfreeAll⟩
    · rcases (isLastOcc_append _ _ t v).mp hin with hinB | ⟨hinF, -⟩
      · exact absurd rfl (hBfree (t, v) (isLastOcc_mem hinB))
      · exact isLastOcc_mem hinF
    · obtain ⟨w, hwm⟩ := hw
      exact absurd rfl (hfreeAll (t, w) (List.mem_append_left _ hwm))

/-- A vendor that always returns an empty bar set. -/
def emptyVendor : Vendor Nat := fun _ _ _ _ => []

/-- A concrete cache with two overlapping partitions whose rows duplicate
the timestamp 2020-01-05; the partition listed second is processed last. -/
def overlapFS : FS Nat :=
  [(("c/A", "1d-2020-01-01-2021-01-01.csv"), [(mkDate 2020 1 5 (by decide), 1)]),
   (("c/A", "1d-2020-06-01-2021-01-01.csv"), [(mkDate 2020 1 5 (by decide), 7)])]

/-- C2 witness: at the concrete overlapping cache, the bar kept for the
duplicated timestamp is the one from the partition processed last (payload
7), certified by applying the claim's characterisation. -/
theorem claim_C2_witness :
    mkDate 2020 1 1 (by decide) ≤ mkDate 2020 1 5 (by decide) ∧
    mkDate 2020 1 5 (by decide) < mkDate 2021 1 1 (by decide) ∧
    isLastOcc
      (load_rows emptyVendor "A" "1d" (mkDate 2020 1 1 (by decide))
        (mkDate 2021 1 1 (by decide)) "c" overlapFS)
      (mkDate 2020 1 5 (by decide)) 7 :=
  ((claim_C2 emptyVendor "A" "1d" (mkDate 2020 1 1 (by decide))
      (mkDate 2021 1 1 (by decide)) "c" overlapFS).2.1
    (mkDate 2020 1 5 (by decide)) 7).mp (by decide)

/-- C6 witness: the concrete overlapping-cache load is sorted by
timestamp. -/
theorem claim_C6_witness :
    List.Sorted byTs
      (load_data emptyVendor "A" "1d" (mkDate 2020 1 1 (by decide))
        (mkDate 2021 1 1 (by decide)) "c" overlapFS).1 :=
  (claim_C6 emptyVendor "A" "1d" (mkDate 2020 1 1 (by decide))
    (mkDate 2021 1 1 (by decide)) "c" overlapFS).2

/-- C10 witness: the path equality at concrete arguments. -/
theorem claim_C10_witness :
    get_fname "AAPL" "1d" (.dt (mkDate 2020 1 1 (by decide)))
        (.dt (mkDate 2020 7 1 (by decide))) (some "cache") =
      get_fname "AAPL" "1d" (.str (formatISO (mkDate 2020 1 1 (by decide))))
        (.str (formatISO (mkDate 2020 7 1 (by decide)))) (some "cache") :=
  (claim_C10 "AAPL" "1d" (some "cache") (mkDate 2020 1 1 (by decide))
    (mkDate 2020 7 1 (by decide))).1

/-- C5 (code bug): the spec says an empty vendor result is not persisted, so
that no partition file exists afterwards for that sub-range and a later
request re-attempts the fetch.  The code's `load_data` indeed guards its own
`save_data` with `if not df.empty`, but it obtains the data through
`download_data(..., cache_data=True)`, which has already written the file
(its `save_data` call is not guarded by emptiness).  At the failing input —
an empty cache and a vendor returning no bars for the missing sub-range
`[2020-01-01, 2020-02-01)` — the call performs the fetch and leaves an
empty partition file for that sub-range on disk, so a later request treats
the window as cached instead of re-fetching. -/
theorem claim_C5_code_bug :
    (load_data emptyVendor "A" "1d" (mkDate 2020 1 1 (by decide))
        (mkDate 2020 2 1 (by decide)) "c" ([] : FS Nat)).2.2 =
      [(mkDate 2020 1 1 (by decide), mkDate 2020 2 1 (by decide))] ∧
    fsLookup
      (load_data emptyVendor "A" "1d" (mkDate 2020 1 1 (by decide))
        (mkDate 2020 2 1 (by decide)) "c" ([] : FS Nat)).2.1
      ("c/A", "1d-2020-01-01-2020-02-01.csv") = some [] ∧
    (load_data emptyVendor "A" "1d" (mkDate 2020 1 1 (by decide))
        (mkDate 2020 2 1 (by decide)) "c"
      (load_data emptyVendor "A" "1d" (mkDate 2020 1 1 (by decide))
        (mkDate 2020 2 1 (by decide)) "c" ([] : FS Nat)).2.1).2.2 = [] := by
  decide

theorem digitVal_digitChar (n : Nat) (h : n < 10) :
    digitVal (digitChar n) = n := by
  interval_cases n <;> rfl

theorem isDigitChar_digitChar (n : Nat) : isDigitChar (digitChar n) = true := by
  unfold digitChar
  split <;> rfl

theorem dateShape_formatISO (d : DateTime) :
    dateShape (formatISO d).data = true := by
  show dateShape
    [digitChar (d.year / 1000 % 10), digitChar (d.year / 100 % 10),
     digitChar (d.year / 10 % 10), digitChar (d.year % 10), '-',
     digitChar (d.month / 10 % 10), digitChar (d.month % 10), '-',
     digitChar (d.day / 10 % 10), digitChar (d.day % 10)] = true
  simp [dateShape, isDigitChar_digitChar]

theorem formatISO_length (d : DateTime) : (formatISO d).data.length = 10 := rfl

/-- Round trip: parsing the `%Y-%m-%d` string of a datetime recovers its
date (years stay within the four `%Y` digits). -/
theorem parse_formatISO (d : DateTime) (hy : d.year ≤ 9999) :
    parseISOChars (formatISO d).data = some d.dateOnly := by
  show parseISOChars
    [digitChar (d.year / 1000 % 10), digitChar (d.year / 100 % 10),
     digitChar (d.year / 10 % 10), digitChar (d.year % 10), '-',
     digitChar (d.month / 10 % 10), digitChar (d.month % 10), '-',
     digitChar (d.day / 10 % 10), digitChar (d.day % 10)] = some d.dateOnly
  rw [parseISOChars]
  simp only [digitVal_digitChar _ (by omega : d.year / 1000 % 10 < 10),
    digitVal_digitChar _ (by omega : d.year / 100 % 10 < 10),
    digitVal_digitChar _ (by omega : d.year / 10 % 10 < 10),
    digitVal_digitChar _ (by omega : d.year % 10 < 10),
    digitVal_digitChar _ (by omega : d.month / 10 % 10 < 10),
    digitVal_digitChar _ (by omega : d.month % 10 < 10),
    digitVal_digitChar _ (by omega : d.day / 10 % 10 < 10),
    digitVal_digitChar _ (by omega : d.day % 10 < 10)]
  have hy' : ((d.year / 1000 % 10 * 10 + d.year / 100 % 10) * 10 +
      d.year / 10 % 10) * 10 + d.year % 10 = d.year := by omega
  have hm' : d.month / 10 % 10 * 10 + d.month % 10 = d.month := by
    have := d.hm2; omega
  have hd' : d.day / 10 % 10 * 10 + d.day % 10 = d.day := by
    have := le_trans d.hd2 (daysInMonth_le d.year d.month); omega
  simp only [hy', hm', hd']
  rw [dif_pos ⟨d.hy, d.hm1, d.hm2, d.hd1, d.hd2⟩]
  rfl

/-- The partition file name written for a split sub-range. -/
def partName (interval : String) (a b : DateTime) : String :=
  interval ++ "-" ++ formatISO a ++ "-" ++ formatISO b ++ ".csv"

theorem cacheKey_dt (cacheDir ticker interval : String) (a b : DateTime) :
    cacheKey cacheDir ticker interval (.dt a) (.dt b) =
      (loadDir cacheDir ticker, partName interval a b) := rfl

theorem formatISO_dateOnly (d : DateTime) :
    formatISO d.dateOnly = formatISO d := rfl

theorem partName_data (interval : String) (a b : DateTime) :
    (partName interval a b).data =
      interval.data ++ '-' :: ((formatISO a).data ++ '-' ::
        ((formatISO b).data ++ ['.', 'c', 's', 'v'])) := by
  simp [partName, String.data_append, List.append_assoc]

theorem take_append_len {α : Type} (A B : List α) (n : Nat)
    (h : A.length = n) : (A ++ B).take n = A := by
  subst h; exact List.take_left A B

theorem drop_append_len {α : Type} (A B : List α) (n : Nat)
    (h : A.length = n) : (A ++ B).drop n = B := by
  subst h; exact List.drop_left A B

theorem matchCacheName_partName (interval : String) (a b : DateTime) :
    matchCacheName interval (partName interval a b) =
      some ((formatISO a).data, (formatISO b).data) := by
  have hA : ((formatISO a).data ++ '-' ::
      ((formatISO b).data ++ ['.', 'c', 's', 'v'])).take 10 =
      (formatISO a).data := take_append_len _ _ 10 rfl
  have hA2 : ((formatISO a).data ++ '-' ::
      ((formatISO b).data ++ ['.', 'c', 's', 'v'])).drop 10 =
      '-' :: ((formatISO b).data ++ ['.', 'c', 's', 'v']) :=
    drop_append_len _ _ 10 rfl
  have hB : ((formatISO b).data ++ ['.', 'c', 's', 'v']).take 10 =
      (formatISO b).data := take_append_len _ _ 10 rfl
  have hB2 : ((formatISO b).data ++ ['.', 'c', 's', 'v']).drop 10 =
      ['.', 'c', 's', 'v'] := drop_append_len _ _ 10 rfl
  simp only [matchCacheName, partName_data, List.take_left, List.drop_left,
    eq_self_iff_true, if_true, hA, hA2, hB, hB2, dateShape_formatISO,
    and_self]

theorem scanEntry_partName (interval dir : String) (a b : DateTime)
    (hya : a.year ≤ 9999) (hyb : b.year ≤ 9999) :
    scanEntry interval dir (partName interval a b) =
      some (a.dateOnly, b.dateOnly, (dir, partName interval a b)) := by
  simp only [scanEntry, matchCacheName_partName, parse_formatISO a hya,
    parse_formatISO b hyb]

theorem fsLookup_cons {β : Type} (x : FileKey × Rows β) (fs : FS β)
    (k : FileKey) :
    fsLookup (x :: fs) k = if k = x.1 then some x.2 else fsLookup fs k := by
  obtain ⟨k1, v⟩ := x
  show List.lookup k ((k1, v) :: fs) = _
  rw [List.lookup_cons]
  by_cases h : k = k1
  · simp [h]
  · have hb : (k == k1) = false := beq_eq_false_iff_ne.mpr h
    simp [hb, h]
    rfl

theorem fsLookup_append {β : Type} (l1 l2 : FS β) (k : FileKey) :
    fsLookup (l1 ++ l2) k =
      match fsLookup l1 k with
      | some v => some v
      | none => fsLookup l2 k := by
  induction l1 with
  | nil => rfl
  | cons x l1 ih =>
    rw [List.cons_append, fsLookup_cons, fsLookup_cons]
    by_cases h : k = x.1
    · simp [h]
    · simp [h, ih]

theorem fsLookup_eq_none {β : Type} (fs : FS β) (k : FileKey) :
    fsLookup fs k = none ↔ ∀ kv ∈ fs, kv.1 ≠ k := by
  induction fs with
  | nil =>
    constructor
    · intro _ kv hkv; exact absurd hkv (List.not_mem_nil kv)
    · intro _; rfl
  | cons x fs ih =>
    rw [fsLookup_cons]
    by_cases h : k = x.1
    · rw [if_pos h]
      constructor
      · intro hc; exact absurd hc (Option.some_ne_none _)
      · intro hall
        exact absurd h.symm (hall x (List.mem_cons_self x fs))
    · rw [if_neg h, ih]
      constructor
      · intro hall kv hkv
        rcases List.mem_cons.mp hkv with rfl | hkv
        · exact fun he => h he.symm
        · exact hall kv hkv
      · intro hall kv hkv
        exact hall kv (List.mem_cons_of_mem x hkv)

theorem fsLookup_ne_none {β : Type} (fs : FS β) (k : FileKey) :
    fsLookup fs k ≠ none ↔ ∃ kv ∈ fs, kv.1 = k := by
  rw [Ne, fsLookup_eq_none]
  push_neg
  rfl

theorem fsLookup_map_self {β : Type} (key : Range → FileKey)
    (data : Range → Rows β) :
    ∀ (S : List Range) (r : Range), r ∈ S →
      S.Pairwise (fun x y => key x ≠ key y) →
      fsLookup (S.map (fun x => (key x, data x))) (key r) = some (data r) := by
  intro S
  induction S with
  | nil => intro r hr; exact absurd hr (List.not_mem_nil r)
  | cons x S ih =>
    intro r hr hdist
    rw [List.map_cons, fsLookup_cons]
    rcases List.mem_cons.mp hr with rfl | hr
    · rw [if_pos rfl]
    · rw [if_neg ?_]
      · exact ih r hr (List.pairwise_cons.mp hdist).2
      · intro he
        exact absurd he.symm ((List.pairwise_cons.mp hdist).1 r hr)

theorem dirNames_append {β : Type} (l1 l2 : FS β) (d : String) :
    dirNames (l1 ++ l2) d = dirNames l1 d ++ dirNames l2 d := by
  simp [dirNames, List.filter_append]

theorem dirNames_map_same {β : Type} (d : String) (name : Range → String)
    (data : Range → Rows β) (S : List Range) :
    dirNames (S.map (fun r => ((d, name r), data r))) d = S.map name := by
  induction S with
  | nil => rfl
  | cons x S ih =>
    rw [List.map_cons]
    show dirNames (((d, name x), data x) :: S.map _) d = _
    simp only [dirNames, List.filter_cons]
    rw [if_pos (by simp)]
    rw [List.map_cons]
    show (name x) :: dirNames (S.map _) d = _
    rw [ih, List.map_cons]

theorem fsLookup_mem_dirNames {β : Type} (fs : FS β) (d n : String)
    (h : fsLookup fs (d, n) ≠ none) : n ∈ dirNames fs d := by
  obtain ⟨kv, hkv, hk⟩ := (fsLookup_ne_none fs (d, n)).mp h
  refine List.mem_map.mpr ⟨kv, List.mem_filter.mpr ⟨hkv, ?_⟩, ?_⟩
  · rw [hk]
    exact beq_self_eq_true d
  · rw [hk]

theorem load_scan_eq {β : Type} (ticker interval cacheDir : String)
    (fs : FS β) :
    load_scan ticker interval cacheDir fs =
      (dirNames fs (loadDir cacheDir ticker)).filterMap
        (scanEntry interval (loadDir cacheDir ticker)) := by
  unfold load_scan fsListing
  by_cases hc : dirNames fs (loadDir cacheDir ticker) = []
  · rw [if_pos hc, hc]
    rfl
  · rw [if_neg hc]
    rfl

/-- The partition key computed by the existence check of `load_data` for a
split sub-range (date-only boundaries). -/
def splitKey (cacheDir ticker interval : String) (r : Range) : FileKey :=
  cacheKey cacheDir ticker interval (.dt r.start.dateOnly) (.dt r.stop.dateOnly)

theorem save_data_fresh {β : Type} (fs : FS β) (k : FileKey) (rows : Rows β)
    (h : fsLookup fs k = none) : save_data fs k rows = fs ++ [(k, rows)] := by
  simp [save_data, h]

theorem save_data_overwrite_last {β : Type} (fs : FS β) (k : FileKey)
    (rows : Rows β) (h : fsLookup fs k = none) :
    save_data (fs ++ [(k, rows)]) k rows = fs ++ [(k, rows)] := by
  have hl : fsLookup (fs ++ [(k, rows)]) k = some rows := by
    rw [fsLookup_append, h]
    show fsLookup [(k, rows)] k = some rows
    rw [fsLookup_cons, if_pos rfl]
  have hfree := (fsLookup_eq_none fs k).mp h
  simp only [save_data, hl, Option.isSome_some, if_pos]
  rw [List.map_append]
  congr 1
  · conv_rhs => rw [← List.map_id fs]
    apply List.map_congr_left
    intro kv hkv
    rw [if_neg (hfree kv hkv)]
    rfl
  · simp

theorem fsLookup_nil {β : Type} (k : FileKey) :
    fsLookup ([] : FS β) k = none := rfl

theorem fetch_fold_spec {β : Type} (vendor : Vendor β)
    (ticker interval cacheDir : String) :
    ∀ (S : List Range) (fs : FS β) (nf : List CacheEntry)
      (lg : List (DateTime × DateTime)),
      (∀ r ∈ S, fsLookup fs (splitKey cacheDir ticker interval r) = none) →
      S.Pairwise (fun x y => splitKey cacheDir ticker interval x ≠
        splitKey cacheDir ticker interval y) →
      S.foldl (fetchStep vendor ticker interval cacheDir) (fs, nf, lg) =
        (fs ++ S.map (fun r => (splitKey cacheDir ticker interval r,
           vendor ticker interval r.start r.stop)),
         nf ++ (S.filter
           (fun r => !(vendor ticker interval r.start r.stop).isEmpty)).map
           (fun r => (r.start, r.stop, splitKey cacheDir ticker interval r)),
         lg ++ S.map (fun r => (r.start, r.stop))) := by
  intro S
  induction S with
  | nil => intro fs nf lg _ _; simp
  | cons r S ih =>
    intro fs nf lg hA hdist
    have hkey : fsLookup fs (splitKey cacheDir ticker interval r) = none :=
      hA r (List.mem_cons_self r S)
    have hkey2 : cacheKey cacheDir ticker interval (.dt r.start) (.dt r.stop) =
      splitKey cacheDir ticker interval r := rfl
    have hkey3 : cacheKey cacheDir ticker interval (.dt r.start.dateOnly)
      (.dt r.stop.dateOnly) = splitKey cacheDir ticker interval r := rfl
    have hstep : fetchStep vendor ticker interval cacheDir (fs, nf, lg) r =
        (fs ++ [(splitKey cacheDir ticker interval r,
           vendor ticker interval r.start r.stop)],
         (if (vendor ticker interval r.start r.stop).isEmpty then nf
          else nf ++ [(r.start, r.stop, splitKey cacheDir ticker interval r)]),
         lg ++ [(r.start, r.stop)]) := by
      simp only [fetchStep, download_data, hkey3, hkey2, hkey,
        Option.isSome_none, Bool.false_eq_true, if_false, if_true,
        save_data_fresh fs _ _ hkey]
      by_cases hemp : (vendor ticker interval r.start r.stop).isEmpty
      · simp only [hemp, if_true, if_pos]
      · simp only [hemp, Bool.false_eq_true, if_false,
          save_data_overwrite_last fs _ _ hkey]
    rw [List.foldl_cons, hstep]
    obtain ⟨hd1, hd2⟩ := List.pairwise_cons.mp hdist
    have hA2 : ∀ r' ∈ S,
        fsLookup (fs ++ [(splitKey cacheDir ticker interval r,
          vendor ticker interval r.start r.stop)])
          (splitKey cacheDir ticker interval r') = none := by
      intro r' hr'
      rw [fsLookup_append, hA r' (List.mem_cons_of_mem r hr')]
      show fsLookup [_] _ = none
      rw [fsLookup_cons, if_neg (fun he => hd1 r' hr' he.symm)]
      rfl
    rw [ih _ _ _ hA2 hd2]
    by_cases hemp : (vendor ticker interval r.start r.stop).isEmpty
    · simp [hemp, List.filter_cons, List.append_assoc]
    · simp [hemp, List.filter_cons, List.append_assoc]


theorem parseISOChars_tod {cs : List Char} {dt : DateTime}
    (h : parseISOChars cs = some dt) : dt.tod = 0 := by
  unfold parseISOChars at h
  split at h
  · dsimp only at h
    split at h
    · injection h with h2
      subst h2
      rfl
    · exact absurd h (Option.noConfusion)
  · exact absurd h (Option.noConfusion)

theorem scanEntry_some {interval dir f : String} {c : CacheEntry}
    (h : scanEntry interval dir f = some c) :
    c.1.tod = 0 ∧ c.2.1.tod = 0 := by
  unfold scanEntry at h
  split at h
  · split at h
    · rename_i sd ed hs he
      injection h with h2
      subst h2
      exact ⟨parseISOChars_tod hs, parseISOChars_tod he⟩
    · exact absurd h (Option.noConfusion)
  · exact absurd h (Option.noConfusion)

theorem mergeGo_pres (P : Range → Prop)
    (hP : ∀ a b : Range, P a → P b → P ⟨a.start, max a.stop b.stop⟩) :
    ∀ (L : List Range) (acc : Range), P acc → (∀ r ∈ L, P r) →
      ∀ x ∈ mergeGo acc L, P x := by
  intro L
  induction L with
  | nil =>
    intro acc ha _ x hx
    simp only [mergeGo, List.mem_singleton] at hx
    subst hx; exact ha
  | cons r rs ih =>
    intro acc ha h1 x hx
    simp only [mergeGo] at hx
    split at hx
    · rcases List.mem_cons.mp hx with h | h
      · subst h; exact ha
      · exact ih r (h1 r (List.mem_cons_self r rs))
          (fun y hy => h1 y (List.mem_cons_of_mem r hy)) x h
    · exact ih _ (hP acc r ha (h1 r (List.mem_cons_self r rs)))
        (fun y hy => h1 y (List.mem_cons_of_mem r hy)) x hx

theorem mergeRanges_pres (P : Range → Prop)
    (hP : ∀ a b : Range, P a → P b → P ⟨a.start, max a.stop b.stop⟩)
    (C : List Range) (h : ∀ r ∈ C, P r) : ∀ x ∈ mergeRanges C, P x := by
  unfold mergeRanges
  rcases hs : List.insertionSort byStart C with _ | ⟨r, rs⟩
  · intro x hx; exact absurd hx (List.not_mem_nil x)
  · have hmem : ∀ y ∈ r :: rs, P y := by
      intro y hy
      exact h y ((List.perm_insertionSort byStart C).mem_iff.mp (hs ▸ hy))
    exact mergeGo_pres P hP rs r (hmem r (List.mem_cons_self r rs))
      (fun y hy => hmem y (List.mem_cons_of_mem r hy))

theorem gapsLoop_stop_tod (re : DateTime) (hre : re.tod = 0) :
    ∀ (L : List Range) (cur : DateTime), (∀ r ∈ L, r.start.tod = 0) →
      ∀ g ∈ gapsLoop re cur L, g.stop.tod = 0 := by
  intro L
  induction L with
  | nil =>
    intro cur _ g hg
    simp only [gapsLoop] at hg
    split at hg
    · obtain rfl := List.mem_singleton.mp hg
      exact hre
    · exact absurd hg (List.not_mem_nil g)
  | cons r rs ih =>
    intro cur hL g hg
    simp only [gapsLoop] at hg
    have hm : ∀ x ∈ (if cur < r.start
        then [(⟨cur, min r.start re⟩ : Range)] else []), x.stop.tod = 0 := by
      intro x hx
      split at hx
      · obtain rfl := List.mem_singleton.mp hx
        show (min r.start re).tod = 0
        rcases min_choice r.start re with h | h <;> rw [h]
        · exact hL r (List.mem_cons_self r rs)
        · exact hre
      · exact absurd hx (List.not_mem_nil x)
    split at hg
    · exact hm g hg
    · rcases List.mem_append.mp hg with hg | hg
      · exact hm g hg
      · exact ih (max cur r.stop)
          (fun y hy => hL y (List.mem_cons_of_mem r hy)) g hg

theorem chain_wf_pairwise :
    ∀ (L : List Range), List.Chain' (fun a b => a.stop ≤ b.start) L →
      (∀ r ∈ L, r.start < r.stop) →
      L.Pairwise (fun a b => a.stop ≤ b.start) := by
  intro L
  induction L with
  | nil => intro _ _; exact List.Pairwise.nil
  | cons a L ih =>
    intro hch hwf
    rw [List.chain'_cons'] at hch
    refine List.pairwise_cons.mpr
      ⟨?_, ih hch.2 (fun r hr => hwf r (List.mem_cons_of_mem a hr))⟩
    intro b hb
    rcases L with _ | ⟨c, L'⟩
    · exact absurd hb (List.not_mem_nil b)
    · have hac : a.stop ≤ c.start := hch.1 c rfl
      rcases List.mem_cons.mp hb with rfl | hb
      · exact hac
      · have hp := ih hch.2 (fun r hr => hwf r (List.mem_cons_of_mem a hr))
        have hcb : c.stop ≤ b.start := (List.pairwise_cons.mp hp).1 b hb
        exact le_trans hac (le_trans
          (le_of_lt (hwf c (List.mem_cons_of_mem a (List.mem_cons_self c L'))))
          hcb)

theorem pairwise_stops_of_chain :
    ∀ (L : List Range), List.Chain' (fun a b => a.stop ≤ b.start) L →
      (∀ r ∈ L, r.start < r.stop) →
      L.Pairwise (fun a b => a.stop < b.stop) := by
  intro L hch hwf
  refine (chain_wf_pairwise L hch hwf).imp_of_mem ?_
  intro a b ha hb h
  exact lt_of_le_of_lt h (hwf b hb)

theorem flatten_filter_nonempty {α : Type} (data : Range → List α)
    (S : List Range) :
    ((S.filter (fun r => !(data r).isEmpty)).map data).flatten =
      (S.map data).flatten := by
  induction S with
  | nil => rfl
  | cons x S ih =>
    rw [List.filter_cons]
    by_cases h : (data x).isEmpty
    · have hb : (!(data x).isEmpty) = false := by simp [h]
      simp only [hb, Bool.false_eq_true, if_false]
      rw [ih, List.map_cons, List.flatten_cons, List.isEmpty_iff.mp h,
        List.nil_append]
    · have hb : (!(data x).isEmpty) = true := by simp [h]
      simp only [hb, if_true]
      rw [List.map_cons, List.map_cons, List.flatten_cons, List.flatten_cons,
        ih]

theorem filterMap_congr_some {α γ : Type} (f : α → Option γ) (g : α → γ)
    (l : List α) (h : ∀ x ∈ l, f x = some (g x)) :
    l.filterMap f = l.map g := by
  induction l with
  | nil => rfl
  | cons x l ih =>
    rw [List.map_cons, List.filterMap_cons, h x (List.mem_cons_self x l),
      ih (fun y hy => h y (List.mem_cons_of_mem x hy))]

theorem load_data_fst {β : Type} (vendor : Vendor β) (ticker interval : String)
    (sd ed : DateTime) (cacheDir : String) (fs : FS β) :
    (load_data vendor ticker interval sd ed cacheDir fs).1 =
      mergeTrim sd ed (load_rows vendor ticker interval sd ed cacheDir fs) := by
  simp only [load_data]
  split
  · rename_i h
    have hrows : load_rows vendor ticker interval sd ed cacheDir fs = [] := by
      rw [load_rows, List.isEmpty_iff.mp h]
      rfl
    rw [hrows]
    rfl
  · rfl

theorem load_scan_tod {β : Type} (ticker interval cacheDir : String)
    (fs : FS β) :
    ∀ c ∈ load_scan ticker interval cacheDir fs,
      c.1.tod = 0 ∧ c.2.1.tod = 0 := by
  intro c hc
  rw [load_scan_eq] at hc
  obtain ⟨f, hf, hfe⟩ := List.mem_filterMap.mp hc
  exact scanEntry_some hfe

theorem merge_pres_tod :
    ∀ a b : Range, (a.start.tod = 0 ∧ a.stop.tod = 0) →
      (b.start.tod = 0 ∧ b.stop.tod = 0) →
      ((⟨a.start, max a.stop b.stop⟩ : Range).start.tod = 0 ∧
       (⟨a.start, max a.stop b.stop⟩ : Range).stop.tod = 0) := by
  intro a b ha hb
  refine ⟨ha.1, ?_⟩
  show (max a.stop b.stop).tod = 0
  rcases max_choice a.stop b.stop with h | h <;> rw [h]
  · exact ha.2
  · exact hb.2

theorem gaps_facts {β : Type} (ticker interval cacheDir : String)
    (sd ed : DateTime) (fs : FS β) (hreq : sd < ed) (hed : ed.tod = 0) :
    ∀ g ∈ find_missing_ranges sd ed (load_scan ticker interval cacheDir fs),
      sd ≤ g.start ∧ g.start < g.stop ∧ g.stop ≤ ed ∧ g.stop.tod = 0 := by
  intro g hg
  unfold find_missing_ranges at hg
  have h1 := gapsLoop_start_bound ed _ sd g hg
  have h2 := gapsLoop_nonzero ed _ sd hreq g hg
  have h3 : g.stop.tod = 0 := by
    refine gapsLoop_stop_tod ed hed _ sd ?_ g hg
    intro r hr
    refine (mergeRanges_pres
      (fun r => r.start.tod = 0 ∧ r.stop.tod = 0) merge_pres_tod _ ?_ r hr).1
    intro x hx
    obtain ⟨c, hc, rfl⟩ := List.mem_map.mp hx
    exact load_scan_tod ticker interval cacheDir fs c hc
  exact ⟨h1.1, h2, h1.2, h3⟩

/-- Every gap handed to the splitter during a load ends at or below
`end_date`, so when `end_date`'s year is below 9990 no split-boundary
computation of `load_data` can raise `ValueError`: the faithful splitter
returns normally and agrees with the totalised one on every gap of the
request, for every granularity. -/
theorem load_gaps_agree {β : Type} (ticker interval cacheDir : String)
    (sd ed : DateTime) (fs : FS β) (hreq : sd < ed) (hed : ed.tod = 0)
    (hy : ed.year ≤ 9989) :
    ∀ g ∈ find_missing_ranges sd ed (load_scan ticker interval cacheDir fs),
      get_split_rangesE g.start g.stop interval =
        some (get_split_ranges g.start g.stop interval) := by
  intro g hg
  obtain ⟨-, -, h3, -⟩ :=
    gaps_facts ticker interval cacheDir sd ed fs hreq hed g hg
  exact get_split_rangesE_agree g.start g.stop interval
    (le_trans (year_mono h3) hy)

theorem load_splits_facts {β : Type} (ticker interval cacheDir : String)
    (sd ed : DateTime) (fs : FS β) (hreq : sd < ed) (hed : ed.tod = 0) :
    ∀ r ∈ load_splits ticker interval sd ed cacheDir fs,
      sd ≤ r.start ∧ r.start < r.stop ∧ r.stop ≤ ed ∧ r.stop.tod = 0 := by
  intro r hr
  unfold load_splits at hr
  obtain ⟨g, hg, hrg⟩ := List.mem_flatMap.mp hr
  obtain ⟨hg1, hg2, hg3, hg4⟩ :=
    gaps_facts ticker interval cacheDir sd ed fs hreq hed g hg
  unfold get_split_ranges at hrg
  have hb := splitLoop_mem_bounds (granularity interval) g.stop _ g.start
    (le_refl _) r hrg
  have ht := splitLoop_stop_tod (granularity interval) g.stop hg4 _ g.start
    (le_refl _) r hrg
  exact ⟨le_trans hg1 hb.1, hb.2.1, le_trans hb.2.2 hg3, ht⟩

theorem splitKey_partName (cacheDir ticker interval : String) (r : Range) :
    splitKey cacheDir ticker interval r =
      (loadDir cacheDir ticker, partName interval r.start r.stop) := rfl

theorem load_splits_fresh {β : Type} (ticker interval cacheDir : String)
    (sd ed : DateTime) (fs : FS β) (hreq : sd < ed) (hed : ed.tod = 0)
    (hy : ed.year ≤ 9999) :
    ∀ r ∈ load_splits ticker interval sd ed cacheDir fs,
      fsLookup fs (splitKey cacheDir ticker interval r) = none := by
  intro r hr
  obtain ⟨h1, h2, h3, h4⟩ :=
    load_splits_facts ticker interval cacheDir sd ed fs hreq hed r hr
  by_contra hsome
  have hyr1 : r.start.year ≤ 9999 :=
    le_trans (year_mono (le_trans (le_of_lt h2) h3)) hy
  have hyr2 : r.stop.year ≤ 9999 := le_trans (year_mono h3) hy
  rw [splitKey_partName] at hsome
  have hmem := fsLookup_mem_dirNames fs _ _ hsome
  have hscan := scanEntry_partName interval (loadDir cacheDir ticker)
    r.start r.stop hyr1 hyr2
  have hc : (r.start.dateOnly, r.stop.dateOnly,
      (loadDir cacheDir ticker, partName interval r.start r.stop)) ∈
      load_scan ticker interval cacheDir fs := by
    rw [load_scan_eq]
    exact List.mem_filterMap.mpr ⟨_, hmem, hscan⟩
  unfold load_splits at hr
  obtain ⟨g, hg, hrg⟩ := List.mem_flatMap.mp hr
  unfold get_split_ranges at hrg
  have hb := splitLoop_mem_bounds (granularity interval) g.stop _ g.start
    (le_refl _) r hrg
  obtain ⟨-, -, hnot⟩ :=
    (find_missing_mem_iff sd ed (load_scan ticker interval cacheDir fs)
      r.start).mp ⟨g, hg, hb.1, lt_of_lt_of_le hb.2.1 hb.2.2⟩
  apply hnot
  refine ⟨_, hc, DateTime.dateOnly_le r.start, ?_⟩
  show r.start < r.stop.dateOnly
  rw [DateTime.dateOnly_eq_self h4]
  exact h2

theorem load_splits_pairwise {β : Type} (ticker interval cacheDir : String)
    (sd ed : DateTime) (fs : FS β) (hreq : sd < ed) (hed : ed.tod = 0)
    (hy : ed.year ≤ 9999)
    (hwf : ∀ c ∈ load_scan ticker interval cacheDir fs, c.1 < c.2.1) :
    (load_splits ticker interval sd ed cacheDir fs).Pairwise
      (fun x y => splitKey cacheDir ticker interval x ≠
        splitKey cacheDir ticker interval y) := by
  have hltstops : (load_splits ticker interval sd ed cacheDir fs).Pairwise
      (fun x y => x.stop < y.stop) := by
    have hdef : load_splits ticker interval sd ed cacheDir fs =
        ((find_missing_ranges sd ed (load_scan ticker interval cacheDir fs)).map
          (fun g => get_split_ranges g.start g.stop interval)).flatten := rfl
    rw [hdef, List.pairwise_flatten]
    constructor
    · intro l hl
      obtain ⟨g, hg, rfl⟩ := List.mem_map.mp hl
      refine pairwise_stops_of_chain _ ?_ ?_
      · unfold get_split_ranges
        have hch := splitLoop_chain (granularity interval) g.stop
          (splitMeasure g.stop g.start) g.start (le_refl _)
        exact List.Chain'.imp (fun a b hab => le_of_eq hab.1) hch
      · intro r hrg
        unfold get_split_ranges at hrg
        exact (splitLoop_mem_bounds (granularity interval) g.stop _ g.start
          (le_refl _) r hrg).2.1
    · rw [List.pairwise_map]
      have hCwf : ∀ r ∈ (load_scan ticker interval cacheDir fs).map
          (fun c => (⟨c.1, c.2.1⟩ : Range)), r.start < r.stop := by
        intro r hrm
        obtain ⟨c, hc, rfl⟩ := List.mem_map.mp hrm
        exact hwf c hc
      have hgapsPW : (find_missing_ranges sd ed
          (load_scan ticker interval cacheDir fs)).Pairwise
          (fun g g' => g.stop ≤ g'.start) := by
        apply chain_wf_pairwise
        · unfold find_missing_ranges
          exact gapsLoop_chain ed _ sd hreq (mergeRanges_wf _ hCwf)
            (mergeRanges_sorted _)
        · intro g hg
          unfold find_missing_ranges at hg
          exact gapsLoop_nonzero ed _ sd hreq g hg
      refine hgapsPW.imp_of_mem ?_
      intro g g' hgm hgm' hle x hx y hy2
      unfold get_split_ranges at hx hy2
      have hxb := splitLoop_mem_bounds (granularity interval) g.stop _ g.start
        (le_refl _) x hx
      have hyb := splitLoop_mem_bounds (granularity interval) g'.stop _ g'.start
        (le_refl _) y hy2
      exact lt_of_le_of_lt (le_trans hxb.2.2 (le_trans hle hyb.1)) hyb.2.1
  refine hltstops.imp_of_mem ?_
  intro x y hx hy2 hlt hkeyeq
  obtain ⟨-, -, hx3, hx4⟩ :=
    load_splits_facts ticker interval cacheDir sd ed fs hreq hed x hx
  obtain ⟨-, -, hy3, hy4⟩ :=
    load_splits_facts ticker interval cacheDir sd ed fs hreq hed y hy2
  have hyx : x.stop.year ≤ 9999 := le_trans (year_mono hx3) hy
  have hyy : y.stop.year ≤ 9999 := le_trans (year_mono hy3) hy
  have h2 : partName interval x.start x.stop =
      partName interval y.start y.stop := congrArg Prod.snd hkeyeq
  have h3 := matchCacheName_partName interval x.start x.stop
  rw [h2, matchCacheName_partName interval y.start y.stop] at h3
  injection h3 with h4
  have h5 : (formatISO y.stop).data = (formatISO x.stop).data :=
    congrArg Prod.snd h4
  have h6 := parse_formatISO y.stop hyy
  rw [h5, parse_formatISO x.stop hyx] at h6
  injection h6 with h7
  rw [DateTime.dateOnly_eq_self hx4, DateTime.dateOnly_eq_self hy4] at h7
  exact (ne_of_lt hlt) h7

theorem load_scan_append {β : Type} (ticker interval cacheDir : String)
    (fs : FS β) (S : List Range) (data : Range → Rows β)
    (hys : ∀ r ∈ S, r.start.year ≤ 9999 ∧ r.stop.year ≤ 9999) :
    load_scan ticker interval cacheDir
      (fs ++ S.map (fun r => (splitKey cacheDir ticker interval r, data r))) =
    load_scan ticker interval cacheDir fs ++
      S.map (fun r => ((r.start.dateOnly : DateTime), r.stop.dateOnly,
        splitKey cacheDir ticker interval r)) := by
  rw [load_scan_eq, dirNames_append, List.filterMap_append]
  congr 1
  · exact (load_scan_eq ticker interval cacheDir fs).symm
  · have hform : S.map (fun r =>
        (splitKey cacheDir ticker interval r, data r)) =
        S.map (fun r => (((loadDir cacheDir ticker),
          partName interval r.start r.stop), data r)) := rfl
    rw [hform, dirNames_map_same]
    rw [List.filterMap_map]
    refine filterMap_congr_some _ _ _ ?_
    intro r hrS
    show scanEntry interval (loadDir cacheDir ticker)
      (partName interval r.start r.stop) = some _
    rw [scanEntry_partName interval (loadDir cacheDir ticker) r.start r.stop
      (hys r hrS).1 (hys r hrS).2]
    rfl

theorem cover_after_fetch {β : Type} (ticker interval cacheDir : String)
    (sd ed : DateTime) (fs : FS β) (hreq : sd < ed) (hed : ed.tod = 0) :
    ∀ t : DateTime, sd ≤ t → t < ed →
      ∃ c ∈ (load_scan ticker interval cacheDir fs ++
        (load_splits ticker interval sd ed cacheDir fs).map
          (fun r => ((r.start.dateOnly : DateTime), r.stop.dateOnly,
            splitKey cacheDir ticker interval r))),
        c.1 ≤ t ∧ t < c.2.1 := by
  intro t ht1 ht2
  by_cases hc : ∃ c ∈ load_scan ticker interval cacheDir fs,
      c.1 ≤ t ∧ t < c.2.1
  · obtain ⟨c, hcm, hc2⟩ := hc
    exact ⟨c, List.mem_append_left _ hcm, hc2⟩
  · obtain ⟨g, hg, hgt⟩ :=
      (find_missing_mem_iff sd ed (load_scan ticker interval cacheDir fs)
        t).mpr ⟨ht1, ht2, hc⟩
    have hsp : ∃ r ∈ get_split_ranges g.start g.stop interval,
        r.start ≤ t ∧ t < r.stop := by
      unfold get_split_ranges
      exact (splitLoop_mem_iff (granularity interval) g.stop _ g.start
        (le_refl _) t).mpr hgt
    obtain ⟨r, hrg, hrt⟩ := hsp
    have hrS : r ∈ load_splits ticker interval sd ed cacheDir fs := by
      unfold load_splits
      exact List.mem_flatMap.mpr ⟨g, hg, hrg⟩
    have hfacts := load_splits_facts ticker interval cacheDir sd ed fs hreq hed
      r hrS
    refine ⟨(r.start.dateOnly, r.stop.dateOnly,
      splitKey cacheDir ticker interval r),
      List.mem_append_right _ (List.mem_map.mpr ⟨r, hrS, rfl⟩), ?_, ?_⟩
    · exact le_trans (DateTime.dateOnly_le r.start) hrt.1
    · show t < r.stop.dateOnly
      rw [DateTime.dateOnly_eq_self hfacts.2.2.2]
      exact hrt.2

theorem load_splits_of_missing_nil {β : Type} (ticker interval cacheDir : String)
    (sd ed : DateTime) (fs : FS β)
    (h : find_missing_ranges sd ed (load_scan ticker interval cacheDir fs) = []) :
    load_splits ticker interval sd ed cacheDir fs = [] := by
  unfold load_splits
  rw [h]
  rfl

theorem load_fetch_of_splits_nil {β : Type} (vendor : Vendor β)
    (ticker interval cacheDir : String) (sd ed : DateTime) (fs : FS β)
    (h : load_splits ticker interval sd ed cacheDir fs = []) :
    load_fetch vendor ticker interval sd ed cacheDir fs = (fs, [], []) := by
  unfold load_fetch
  rw [h]
  rfl

/-- C4 (amended): for a date-aligned request (`end_date` at midnight, with
year below 9990 so that every split-boundary computation of both calls
stays within `datetime`'s year range for every granularity — see
`get_split_rangesE_agree` and `load_gaps_agree`) against a well-formed
cache (scanned partitions with start < end), a second `load_data` with
identical arguments, run on the cache state left by the first call,
performs zero vendor calls, leaves the cache unchanged and returns the
identical bar sequence. -/
theorem claim_C4 {β : Type} (vendor : Vendor β) (ticker interval cacheDir : String)
    (sd ed : DateTime) (fs : FS β)
    (hreq : sd < ed) (hed : ed.tod = 0) (hy : ed.year ≤ 9989)
    (hwf : ∀ c ∈ load_scan ticker interval cacheDir fs, c.1 < c.2.1) :
    (load_data vendor ticker interval sd ed cacheDir
       (load_data vendor ticker interval sd ed cacheDir fs).2.1).2.2 = [] ∧
    (load_data vendor ticker interval sd ed cacheDir
       (load_data vendor ticker interval sd ed cacheDir fs).2.1).2.1 =
      (load_data vendor ticker interval sd ed cacheDir fs).2.1 ∧
    (load_data vendor ticker interval sd ed cacheDir
       (load_data vendor ticker interval sd ed cacheDir fs).2.1).1 =
      (load_data vendor ticker interval sd ed cacheDir fs).1 := by
  have hy9 : ed.year ≤ 9999 := by omega
  have hA := load_splits_fresh ticker interval cacheDir sd ed fs hreq hed hy9
  have hB := load_splits_pairwise ticker interval cacheDir sd ed fs hreq hed
    hy9 hwf
  have hfold := fetch_fold_spec vendor ticker interval cacheDir
    (load_splits ticker interval sd ed cacheDir fs) fs [] [] hA hB
  have hfetch1 : load_fetch vendor ticker interval sd ed cacheDir fs =
      (fs ++ (load_splits ticker interval sd ed cacheDir fs).map
         (fun r => (splitKey cacheDir ticker interval r,
           vendor ticker interval r.start r.stop)),
       ((load_splits ticker interval sd ed cacheDir fs).filter
         (fun r => !(vendor ticker interval r.start r.stop).isEmpty)).map
         (fun r => ((r.start : DateTime), r.stop,
           splitKey cacheDir ticker interval r)),
       (load_splits ticker interval sd ed cacheDir fs).map
         (fun r => ((r.start : DateTime), r.stop))) := by
    unfold load_fetch
    rw [hfold]
    simp
  have hys : ∀ r ∈ load_splits ticker interval sd ed cacheDir fs,
      r.start.year ≤ 9999 ∧ r.stop.year ≤ 9999 := by
    intro r hrS
    obtain ⟨h1, h2, h3, -⟩ :=
      load_splits_facts ticker interval cacheDir sd ed fs hreq hed r hrS
    exact ⟨le_trans (year_mono (le_trans (le_of_lt h2) h3)) hy9,
      le_trans (year_mono h3) hy9⟩
  have hscan2 : load_scan ticker interval cacheDir
      (fs ++ (load_splits ticker interval sd ed cacheDir fs).map
        (fun r => (splitKey cacheDir ticker interval r,
          vendor ticker interval r.start r.stop))) =
      load_scan ticker interval cacheDir fs ++
        (load_splits ticker interval sd ed cacheDir fs).map
          (fun r => ((r.start.dateOnly : DateTime), r.stop.dateOnly,
            splitKey cacheDir ticker interval r)) :=
    load_scan_append ticker interval cacheDir fs
      (load_splits ticker interval sd ed cacheDir fs)
      (fun r => vendor ticker interval r.start r.stop) hys
  have hout1 : (load_data vendor ticker interval sd ed cacheDir fs).2.1 =
      fs ++ (load_splits ticker interval sd ed cacheDir fs).map
        (fun r => (splitKey cacheDir ticker interval r,
          vendor ticker interval r.start r.stop)) := by
    simp only [load_data]
    rw [hfetch1]
  have hmiss2 : find_missing_ranges sd ed (load_scan ticker interval cacheDir
      (fs ++ (load_splits ticker interval sd ed cacheDir fs).map
        (fun r => (splitKey cacheDir ticker interval r,
          vendor ticker interval r.start r.stop)))) = [] := by
    rw [hscan2]
    exact find_missing_covered sd ed _ hreq
      (cover_after_fetch ticker interval cacheDir sd ed fs hreq hed)
  have hsplits2 : load_splits ticker interval sd ed cacheDir
      (fs ++ (load_splits ticker interval sd ed cacheDir fs).map
        (fun r => (splitKey cacheDir ticker interval r,
          vendor ticker interval r.start r.stop))) = [] :=
    load_splits_of_missing_nil ticker interval cacheDir sd ed _ hmiss2
  have hfetch2 : load_fetch vendor ticker interval sd ed cacheDir
      (fs ++ (load_splits ticker interval sd ed cacheDir fs).map
        (fun r => (splitKey cacheDir ticker interval r,
          vendor ticker interval r.start r.stop))) =
      (fs ++ (load_splits ticker interval sd ed cacheDir fs).map
        (fun r => (splitKey cacheDir ticker interval r,
          vendor ticker interval r.start r.stop)), [], []) :=
    load_fetch_of_splits_nil vendor ticker interval cacheDir sd ed _ hsplits2
  rw [hout1]
  refine ⟨?_, ?_, ?_⟩
  · simp only [load_data]
    rw [hfetch2]
  · simp only [load_data]
    rw [hfetch2]
  · rw [load_data_fst, load_data_fst]
    refine congrArg (mergeTrim sd ed) ?_
    have hFr : ∀ r ∈ load_splits ticker interval sd ed cacheDir fs,
        (fsLookup (fs ++ (load_splits ticker interval sd ed cacheDir fs).map
          (fun x => (splitKey cacheDir ticker interval x,
            vendor ticker interval x.start x.stop)))
          (splitKey cacheDir ticker interval r)).getD [] =
        vendor ticker interval r.start r.stop := by
      intro r hrS
      rw [fsLookup_append, hA r hrS]
      show (fsLookup ((load_splits ticker interval sd ed cacheDir fs).map
        (fun x => (splitKey cacheDir ticker interval x,
          vendor ticker interval x.start x.stop)))
        (splitKey cacheDir ticker interval r)).getD [] = _
      rw [fsLookup_map_self (splitKey cacheDir ticker interval)
        (fun x => vendor ticker interval x.start x.stop) _ r hrS hB]
      rfl
    have hrel2 : load_relevant vendor ticker interval sd ed cacheDir
        (fs ++ (load_splits ticker interval sd ed cacheDir fs).map
          (fun r => (splitKey cacheDir ticker interval r,
            vendor ticker interval r.start r.stop))) =
        (load_scan ticker interval cacheDir fs).filter
          (fun f => !(decide (f.2.1 ≤ sd) || decide (ed ≤ f.1))) ++
        (load_splits ticker interval sd ed cacheDir fs).map
          (fun r => ((r.start.dateOnly : DateTime), r.stop.dateOnly,
            splitKey cacheDir ticker interval r)) := by
      unfold load_relevant
      rw [hfetch2, hscan2, List.append_nil, List.filter_append]
      congr 1
      apply List.filter_eq_self.mpr
      intro c hcm
      obtain ⟨r, hrS, rfl⟩ := List.mem_map.mp hcm
      obtain ⟨h1, h2, h3, h4⟩ :=
        load_splits_facts ticker interval cacheDir sd ed fs hreq hed r hrS
      have hp1 : ¬(r.stop.dateOnly ≤ sd) := by
        rw [DateTime.dateOnly_eq_self h4]
        exact not_le.mpr (lt_of_le_of_lt h1 h2)
      have hp2 : ¬(ed ≤ r.start.dateOnly) := by
        refine not_le.mpr (lt_of_le_of_lt (DateTime.dateOnly_le r.start) ?_)
        exact lt_of_lt_of_le h2 h3
      simp [hp1, hp2]
    have hrel1 : load_relevant vendor ticker interval sd ed cacheDir fs =
        (load_scan ticker interval cacheDir fs).filter
          (fun f => !(decide (f.2.1 ≤ sd) || decide (ed ≤ f.1))) ++
        ((load_splits ticker interval sd ed cacheDir fs).filter
          (fun r => !(vendor ticker interval r.start r.stop).isEmpty)).map
          (fun r => ((r.start : DateTime), r.stop,
            splitKey cacheDir ticker interval r)) := by
      unfold load_relevant
      rw [hfetch1, List.filter_append]
      congr 1
      apply List.filter_eq_self.mpr
      intro c hcm
      obtain ⟨r, hrF, rfl⟩ := List.mem_map.mp hcm
      have hrS := List.mem_of_mem_filter hrF
      obtain ⟨h1, h2, h3, -⟩ :=
        load_splits_facts ticker interval cacheDir sd ed fs hreq hed r hrS
      have hp1 : ¬(r.stop ≤ sd) := not_le.mpr (lt_of_le_of_lt h1 h2)
      have hp2 : ¬(ed ≤ r.start) := not_le.mpr (lt_of_lt_of_le h2 h3)
      simp [hp1, hp2]
    have hF1 : load_fileRows vendor ticker interval sd ed cacheDir fs =
        fun f => (fsLookup (fs ++
          (load_splits ticker interval sd ed cacheDir fs).map
            (fun r => (splitKey cacheDir ticker interval r,
              vendor ticker interval r.start r.stop))) f.2.2).getD [] := by
      funext f
      unfold load_fileRows
      rw [hfetch1]
    have hF2 : load_fileRows vendor ticker interval sd ed cacheDir
        (fs ++ (load_splits ticker interval sd ed cacheDir fs).map
          (fun r => (splitKey cacheDir ticker interval r,
            vendor ticker interval r.start r.stop))) =
        fun f => (fsLookup (fs ++
          (load_splits ticker interval sd ed cacheDir fs).map
            (fun r => (splitKey cacheDir ticker interval r,
              vendor ticker interval r.start r.stop))) f.2.2).getD [] := by
      funext f
      unfold load_fileRows
      rw [hfetch2]
    rw [load_rows, load_rows, hrel1, hrel2, hF1, hF2, List.map_append,
      List.map_append, List.flatten_append, List.flatten_append]
    congr 1
    rw [List.map_map, List.map_map]
    have h1 : (load_splits ticker interval sd ed cacheDir fs).map
        ((fun f : CacheEntry => (fsLookup (fs ++
          (load_splits ticker interval sd ed cacheDir fs).map
            (fun r => (splitKey cacheDir ticker interval r,
              vendor ticker interval r.start r.stop))) f.2.2).getD []) ∘
          (fun r => ((r.start.dateOnly : DateTime), r.stop.dateOnly,
            splitKey cacheDir ticker interval r))) =
        (load_splits ticker interval sd ed cacheDir fs).map
          (fun r => vendor ticker interval r.start r.stop) :=
      List.map_congr_left (fun r hrS => hFr r hrS)
    have h2 : ((load_splits ticker interval sd ed cacheDir fs).filter
        (fun r => !(vendor ticker interval r.start r.stop).isEmpty)).map
        ((fun f : CacheEntry => (fsLookup (fs ++
          (load_splits ticker interval sd ed cacheDir fs).map
            (fun r => (splitKey cacheDir ticker interval r,
              vendor ticker interval r.start r.stop))) f.2.2).getD []) ∘
          (fun r => ((r.start : DateTime), r.stop,
            splitKey cacheDir ticker interval r))) =
        ((load_splits ticker interval sd ed cacheDir fs).filter
          (fun r => !(vendor ticker interval r.start r.stop).isEmpty)).map
          (fun r => vendor ticker interval r.start r.stop) :=
      List.map_congr_left (fun r hrF => hFr r (List.mem_of_mem_filter hrF))
    rw [h1, h2]
    exact (flatten_filter_nonempty
      (fun r => vendor ticker interval r.start r.stop)
      (load_splits ticker interval sd ed cacheDir fs)).symm

/-- 2020-03-15 12:00, a request end that is not date-aligned. -/
def noonMarch15 : DateTime :=
  ⟨2020, 3, 15, 43200000000, by decide, by decide, by decide, by decide,
    by decide, by decide⟩

/-- C4 counterexample: with a request end carrying a time of day, the first
call persists a partition named after the truncated date `2020-03-15`, the
second scan therefore covers only up to midnight, and the second call
performs a vendor fetch for the remaining half day — the claim's "zero
vendor calls on the second call for every date range" fails as stated. -/
theorem claim_C4_counterexample :
    (load_data emptyVendor "A" "1d" (mkDate 2020 1 1 (by decide)) noonMarch15
      "c"
      (load_data emptyVendor "A" "1d" (mkDate 2020 1 1 (by decide)) noonMarch15
        "c" ([] : FS Nat)).2.1).2.2 ≠ [] := by decide

/-- A vendor returning one bar at the requested start. -/
def oneBarVendor : Vendor Nat := fun _ _ s _ => [(s, 42)]

/-- C4 witness: at a concrete date-aligned request on an empty cache, the
second call performs zero vendor fetches. -/
theorem claim_C4_witness :
    (load_data oneBarVendor "A" "1d" (mkDate 2020 1 1 (by decide))
      (mkDate 2020 3 1 (by decide)) "c"
      (load_data oneBarVendor "A" "1d" (mkDate 2020 1 1 (by decide))
        (mkDate 2020 3 1 (by decide)) "c" ([] : FS Nat)).2.1).2.2 = [] :=
  (claim_C4 oneBarVendor "A" "1d" "c" (mkDate 2020 1 1 (by decide))
    (mkDate 2020 3 1 (by decide)) [] (by decide) (by decide) (by decide)
    (by decide)).1
